import Mathlib

/-!
# Prometheus-to-Grafana alert conversion (`convert-alerts.mjs`)

A shallow embedding of the pure core of `convert-alerts.mjs`: the folder
classifier `determineFolder`, the identifier generator `generateUid`, the query
synthesizer `convertPromQLToGrafanaQuery`, the rule converter `convertRule` and
the per-group loop body of `convertPrometheusRule`; and of the structural checks
of `validateFile` in `validate-yaml.mjs`.

Representation choices.

* A JavaScript string is a `List Char` (abbreviated `Str`). All character tests
  made by the program (the regular-expression classes, `trim`, `split`,
  `includes`, `startsWith`) look at characters of the Basic Multilingual Plane
  only, and `substring` is applied either to a string of ASCII characters or at
  an index returned by a match on the same string.
* `String.prototype.toLowerCase` is a built-in that is not part of the
  repository. Every definition that calls it takes it as the parameter `lower`.
* The regular expressions of the program are sequences of quantified character
  classes, optionally closed by `$`. They are embedded as data (`Atom` lists)
  and run by a backtracking matcher (`matchHere`, `search`) that follows the
  greedy semantics of the ECMAScript matcher.
* A value that may be `undefined` is an `Option`; a call that would raise a
  `TypeError` (a method call on `undefined`) yields `none`.
-/

namespace CopperIQ

/-- A JavaScript string, as the list of its characters. -/
abbrev Str := List Char

/-! ## Character classes -/

/-- The characters matched by `\s` and removed by `trim`: the ECMAScript
`WhiteSpace` and `LineTerminator` productions. -/
def isWhiteSpace (c : Char) : Bool :=
  let n := c.toNat
  n == 9 || n == 10 || n == 11 || n == 12 || n == 13 || n == 32 || n == 160 ||
  n == 0x1680 || (0x2000 ≤ n && n ≤ 0x200A) || n == 0x2028 || n == 0x2029 ||
  n == 0x202F || n == 0x205F || n == 0x3000 || n == 0xFEFF

/-- The class `\d`. -/
def isDigit (c : Char) : Bool := 48 ≤ c.toNat && c.toNat ≤ 57

/-- The class `[<>=!]`. -/
def isOpChar (c : Char) : Bool := c == '<' || c == '>' || c == '=' || c == '!'

/-- The class `[a-z0-9_-]`. -/
def isUidChar (c : Char) : Bool :=
  (97 ≤ c.toNat && c.toNat ≤ 122) || (48 ≤ c.toNat && c.toNat ≤ 57) || c == '_' || c == '-'

/-- The class `[^a-z0-9_-]`. -/
def isNotUidChar (c : Char) : Bool := !isUidChar c

/-- The literal `-`. -/
def isHyphen (c : Char) : Bool := c == '-'

/-- The literal `\|`. -/
def isPipe (c : Char) : Bool := c == '|'

/-- The literal `\n`. -/
def isNewline (c : Char) : Bool := c == '\n'

/-- The literal `\.`. -/
def isDot (c : Char) : Bool := c == '.'

/-! ## A backtracking matcher for sequences of quantified character classes -/

/-- Quantifier of an atom: `x`, `x?`, `x*`, `x+` (all greedy). -/
inductive Quant
  | one
  | opt
  | star
  | plus
  deriving DecidableEq, Repr

/-- Least number of repetitions a quantifier accepts. -/
def Quant.lo : Quant → Nat
  | .one => 1
  | .opt => 0
  | .star => 0
  | .plus => 1

/-- Greatest number of repetitions a quantifier tries when `avail` characters of
the class are available in a row. -/
def Quant.hi : Quant → Nat → Nat
  | .one, avail => min 1 avail
  | .opt, avail => min 1 avail
  | .star, avail => avail
  | .plus, avail => avail

/-- A quantified character class. -/
structure Atom where
  cls : Char → Bool
  q : Quant

/-- Greedy repetition with backtracking: try to let the atom consume `n`
characters and the continuation `k` match what follows; on failure retry with
one character fewer, down to `lo`. The result lists the text consumed by each
atom. -/
def tryDown (k : Str → Option (List Str)) (s : Str) (lo : Nat) : Nat → Option (List Str)
  | 0 => if lo = 0 then (k s).map (fun r => [] :: r) else none
  | n + 1 =>
    if lo ≤ n + 1 then
      match k (s.drop (n + 1)) with
      | some r => some (s.take (n + 1) :: r)
      | none => tryDown k s lo n
    else none

/-- Match the atoms, in sequence, at the start of `s`; `atEnd` is the trailing
`$` assertion. Returns the text consumed by each atom. -/
def matchHere (atEnd : Bool) : List Atom → Str → Option (List Str)
  | [], s => if atEnd && !s.isEmpty then none else some []
  | a :: as, s =>
    tryDown (matchHere atEnd as) s a.q.lo (a.q.hi (s.takeWhile a.cls).length)

/-- Leftmost match: try every start position from left to right (the position
after the last character included). Returns the start index and the texts
consumed by the atoms. -/
def search (atEnd : Bool) (atoms : List Atom) : Str → Nat → Option (Nat × List Str)
  | [], i => (matchHere atEnd atoms []).map (fun ps => (i, ps))
  | c :: t, i =>
    match matchHere atEnd atoms (c :: t) with
    | some ps => some (i, ps)
    | none => search atEnd atoms t (i + 1)

/-- The method `s.replace(re, repl)` for a regular expression without the `g`
flag: the leftmost match is replaced. -/
def replaceFirst (atEnd : Bool) (atoms : List Atom) (repl : Str) (s : Str) : Str :=
  match search atEnd atoms s 0 with
  | some (i, ps) => s.take i ++ repl ++ s.drop (i + ps.flatten.length)
  | none => s

/-- Worker of `replaceAll`: `skip` counts the characters still covered by the
last match. -/
def replaceAllAux (atoms : List Atom) (repl : Str) : Nat → Str → Str
  | _ + 1, [] => []
  | 0, [] =>
    match matchHere false atoms [] with
    | some _ => repl
    | none => []
  | skip + 1, _ :: t => replaceAllAux atoms repl skip t
  | 0, c :: t =>
    match matchHere false atoms (c :: t) with
    | some ps =>
      if ps.flatten.length = 0 then repl ++ c :: replaceAllAux atoms repl 0 t
      else repl ++ replaceAllAux atoms repl (ps.flatten.length - 1) t
    | none => c :: replaceAllAux atoms repl 0 t

/-- The method `s.replace(re, repl)` for a regular expression with the `g`
flag and no anchor: every match, found from left to right, each search
resuming where the last match ended, is replaced. -/
def replaceAll (atoms : List Atom) (repl : Str) (s : Str) : Str :=
  replaceAllAux atoms repl 0 s

/-- The method `s.replace(re, repl)` for a regular expression that starts with
`^` (no `m` flag): only a match at index 0 exists, with or without the `g`
flag. -/
def replaceAtStart (atoms : List Atom) (repl : Str) (s : Str) : Str :=
  match matchHere false atoms s with
  | some ps => repl ++ s.drop ps.flatten.length
  | none => s

/-! ## String methods -/

/-- The method `s.trim()`. -/
def trim (s : Str) : Str := (s.dropWhile isWhiteSpace).rdropWhile isWhiteSpace

/-- The method `s.substring(0, n)`. -/
def substring0 (s : Str) (n : Nat) : Str := s.take n

/-- The method `s.startsWith(p)`. -/
def startsWith (s p : Str) : Bool := p.isPrefixOf s

/-- The method `s.includes(key)`. -/
def includes : Str → Str → Bool
  | [], key => key.isEmpty
  | c :: t, key => key.isPrefixOf (c :: t) || includes t key

/-- The method `s.split('\n')`. -/
def splitLines : Str → List Str
  | [] => [[]]
  | c :: t =>
    if c = '\n' then [] :: splitLines t
    else
      match splitLines t with
      | l :: ls => (c :: l) :: ls
      | [] => [[c]]

/-- The method `lines.join(' ')`. -/
def joinSpace (lines : List Str) : Str := List.intercalate [' '] lines

/-! ## `generateUid` -/

/-- The function `generateUid(alertName)`, given the built-in `toLowerCase`. -/
def generateUid (lower : Str → Str) (alertName : Str) : Str :=
  let uid := replaceAll [⟨isNotUidChar, .one⟩] ['-'] (lower alertName)
  let uid := replaceAll [⟨isHyphen, .plus⟩] ['-'] uid
  replaceFirst true [⟨isHyphen, .plus⟩] [] (substring0 uid 40)

/-- Lowercasing of the ASCII letters only: it agrees with `toLowerCase` on
ASCII strings. -/
def asciiLower (s : Str) : Str := s.map Char.toLower

/-! ## `convertPromQLToGrafanaQuery` -/

/-- The record `relativeTimeRange` of a stage. -/
structure RelativeTimeRange where
  «from» : Nat
  «to» : Nat
  deriving DecidableEq, Repr

/-- The record `datasource` of a stage model. -/
structure Datasource where
  type : Str
  uid : Str
  deriving DecidableEq, Repr

/-- The record `model` of a stage; a field that a stage does not carry is
`none`. -/
structure StageModel where
  expr : Option Str
  type : Option Str
  expression : Option Str
  reducer : Option Str
  refId : Str
  datasource : Datasource
  intervalMs : Option Nat
  maxDataPoints : Option Nat
  deriving DecidableEq, Repr

/-- One stage of the evaluation pipeline. -/
structure QueryStage where
  refId : Str
  relativeTimeRange : RelativeTimeRange
  datasourceUid : Str
  model : StageModel
  deriving DecidableEq, Repr

/-- The regular expression `^\|\s*\n`, without its anchor. -/
def markerPattern : List Atom :=
  [⟨isPipe, .one⟩, ⟨isWhiteSpace, .star⟩, ⟨isNewline, .one⟩]

/-- The regular expression `([<>=!]+)\s*(\d+\.?\d*)\s*$`, without its final
`$`. -/
def comparisonPattern : List Atom :=
  [⟨isOpChar, .plus⟩, ⟨isWhiteSpace, .star⟩, ⟨isDigit, .plus⟩, ⟨isDot, .opt⟩,
   ⟨isDigit, .star⟩, ⟨isWhiteSpace, .star⟩]

/-- The filter callback `line => line && !line.startsWith('|')`. -/
def keepLine (line : Str) : Bool := !line.isEmpty && !startsWith line ['|']

/-- Lines 58 to 66 of `convertPromQLToGrafanaQuery`: the value of `expr` when
the comparison is extracted. -/
def normalizeExpr (expr : Str) : Str :=
  let expr := trim (replaceAtStart markerPattern [] expr)
  if includes expr ['\n'] then
    joinSpace (((splitLines expr).map trim).filter keepLine)
  else expr

/-- Lines 69 to 80 of `convertPromQLToGrafanaQuery`: the pair
`(baseExpr, mathExpr)` computed from the normalized `expr`. The first capture
group is the text of the first atom, the second one the text of atoms three to
five. -/
def splitComparison (expr : Str) : Str × Str :=
  match search true comparisonPattern expr 0 with
  | some (index, ps) =>
    let operator := ps.getD 0 []
    let threshold := ps.getD 2 [] ++ ps.getD 3 [] ++ ps.getD 4 []
    (trim (substring0 expr index), "$B ".toList ++ operator ++ " ".toList ++ threshold)
  | none => (expr, "$B > 0".toList)

/-- The function `convertPromQLToGrafanaQuery(expr)`. -/
def convertPromQLToGrafanaQuery (expr : Str) : List QueryStage :=
  let expr := normalizeExpr expr
  let baseExpr := (splitComparison expr).1
  let mathExpr := (splitComparison expr).2
  [ { refId := "A".toList
      relativeTimeRange := { «from» := 600, «to» := 0 }
      datasourceUid := "prometheus".toList
      model :=
        { expr := some baseExpr
          type := none
          expression := none
          reducer := none
          refId := "A".toList
          datasource := { type := "prometheus".toList, uid := "prometheus".toList }
          intervalMs := some 1000
          maxDataPoints := some 43200 } },
    { refId := "B".toList
      relativeTimeRange := { «from» := 0, «to» := 0 }
      datasourceUid := "__expr__".toList
      model :=
        { expr := none
          type := some "reduce".toList
          expression := some "A".toList
          reducer := some "last".toList
          refId := "B".toList
          datasource := { type := "__expr__".toList, uid := "__expr__".toList }
          intervalMs := none
          maxDataPoints := none } },
    { refId := "C".toList
      relativeTimeRange := { «from» := 0, «to» := 0 }
      datasourceUid := "__expr__".toList
      model :=
        { expr := none
          type := some "math".toList
          expression := some mathExpr
          reducer := none
          refId := "C".toList
          datasource := { type := "__expr__".toList, uid := "__expr__".toList }
          intervalMs := none
          maxDataPoints := none } } ]

/-! ## Rules, groups and `determineFolder` -/

/-- A mapping from strings to strings (`labels`, `annotations`), in document
order. -/
abbrev Mapping := List (Str × Str)

/-- A rule of a PrometheusRule group; an absent field is `none`. -/
structure SourceRule where
  alert : Option Str
  expr : Option Str
  «for» : Option Str
  labels : Option Mapping
  annotations : Option Mapping
  deriving DecidableEq, Repr

/-- A group of a PrometheusRule resource. -/
structure SourceGroup where
  name : Str
  interval : Option Str
  rules : Option (List SourceRule)
  deriving DecidableEq, Repr

/-- A rule of the Grafana provisioning format. -/
structure TargetRule where
  uid : Str
  title : Str
  condition : Str
  «for» : Str
  noDataState : Str
  execErrState : Str
  annotations : Mapping
  labels : Mapping
  data : List QueryStage
  deriving DecidableEq, Repr

/-- A group of the Grafana provisioning format. -/
structure TargetGroup where
  orgId : Nat
  name : Str
  folder : Str
  interval : Str
  rules : List TargetRule
  deriving DecidableEq, Repr

/-- The object `outputData`. -/
structure OutputData where
  apiVersion : Nat
  groups : List TargetGroup
  deriving DecidableEq, Repr

/-- The expression `v || d` for a string `v` that may be `undefined`: the empty
string is falsy. -/
def orElse (v : Option Str) (d : Str) : Str :=
  match v with
  | some s => if s.isEmpty then d else s
  | none => d

/-- Truthiness of a string that may be `undefined`. -/
def truthy (v : Option Str) : Bool :=
  match v with
  | some s => !s.isEmpty
  | none => false

/-- The table `FOLDER_MAPPING`, in the order of `Object.entries`. -/
def FOLDER_MAPPING : List (Str × Str) :=
  [ ("aks".toList, "infrastructure".toList),
    ("node".toList, "infrastructure".toList),
    ("cluster".toList, "infrastructure".toList),
    ("postgresql".toList, "databases".toList),
    ("mysql".toList, "databases".toList),
    ("rabbitmq".toList, "applications".toList),
    ("n8n".toList, "applications".toList),
    ("argocd".toList, "applications".toList),
    ("cert-manager".toList, "applications".toList),
    ("external-dns".toList, "applications".toList),
    ("content-platform".toList, "applications".toList) ]

/-- The function `determineFolder(alertRule)`, given the built-in
`toLowerCase`. -/
def determineFolder (lower : Str → Str) (alertRule : SourceRule) : Str :=
  let labels := alertRule.labels.getD []
  let component := lower (orElse (labels.lookup "component".toList) [])
  let category := lower (orElse (labels.lookup "category".toList) [])
  match FOLDER_MAPPING.find? (fun entry => includes component entry.1) with
  | some entry => entry.2
  | none =>
    if category = "infrastructure".toList then "infrastructure".toList
    else if category = "database".toList then "databases".toList
    else if category = "application".toList then "applications".toList
    else "applications".toList

/-- The function `convertRule(rule)`, given the built-in `toLowerCase`. The
result is `none` when `rule.alert` or `rule.expr` is `undefined`: the method
call on it raises a `TypeError`. -/
def convertRule (lower : Str → Str) (rule : SourceRule) : Option TargetRule :=
  match rule.alert, rule.expr with
  | some alertName, some expr =>
    some
      { uid := generateUid lower alertName
        title := alertName
        condition := "C".toList
        «for» := orElse rule.«for» "0s".toList
        noDataState := "OK".toList
        execErrState := "Alerting".toList
        annotations := rule.annotations.getD []
        labels := rule.labels.getD []
        data := convertPromQLToGrafanaQuery expr }
  | _, _ => none

/-- The inner loop of `convertPrometheusRule` (lines 178 to 183): the rules with
a truthy `alert` are converted and pushed, in order, on `grafanaRules`. -/
def convertRules (lower : Str → Str) : List SourceRule → List TargetRule → Option (List TargetRule)
  | [], grafanaRules => some grafanaRules
  | rule :: rest, grafanaRules =>
    if truthy rule.alert then
      match convertRule lower rule with
      | some r => convertRules lower rest (grafanaRules ++ [r])
      | none => none
    else convertRules lower rest grafanaRules

/-- The body of the outer loop of `convertPrometheusRule` (lines 168 to 191):
the group pushed on `grafanaGroups` for one source group. -/
def convertGroup (lower : Str → Str) (group : SourceGroup) : Option TargetGroup :=
  let groupName := group.name
  let interval := orElse group.interval "30s".toList
  let rules := group.rules.getD []
  let folder :=
    match rules with
    | [] => "applications".toList
    | first :: _ => determineFolder lower first
  match convertRules lower rules [] with
  | some grafanaRules =>
    some { orgId := 1, name := groupName, folder := folder, interval := interval,
           rules := grafanaRules }
  | none => none

/-- The outer loop of `convertPrometheusRule` (lines 165 to 192). -/
def convertGroups (lower : Str → Str) : List SourceGroup → List TargetGroup → Option (List TargetGroup)
  | [], grafanaGroups => some grafanaGroups
  | group :: rest, grafanaGroups =>
    match convertGroup lower group with
    | some g => convertGroups lower rest (grafanaGroups ++ [g])
    | none => none

/-- The object `outputData` that `convertPrometheusRule` builds from
`spec.groups` (lines 165 to 197). -/
def convertPrometheusRule (lower : Str → Str) (groups : List SourceGroup) : Option OutputData :=
  match convertGroups lower groups [] with
  | some grafanaGroups => some { apiVersion := 1, groups := grafanaGroups }
  | none => none

/-! ## `validateFile` (`validate-yaml.mjs`) -/

/-- A rule of a parsed provisioning file, as far as `validateFile` reads it. A
field is `none` when it is absent; `data` is `some` when it is an array. -/
structure ParsedRule where
  uid : Option Str
  title : Option Str
  condition : Option Str
  data : Option (List QueryStage)
  deriving DecidableEq, Repr

/-- A group of a parsed provisioning file, as far as `validateFile` reads it;
`rules` is `some` when it is an array. -/
structure ParsedGroup where
  name : Option Str
  folder : Option Str
  rules : Option (List ParsedRule)
  deriving DecidableEq, Repr

/-- A parsed provisioning file, as far as `validateFile` reads it: `folders`,
`contactPoints` and `policies` hold the truthiness of the field, `groups` is
`some` when it is an array. -/
structure ParsedDocument where
  apiVersion : Option Nat
  folders : Bool
  contactPoints : Bool
  policies : Bool
  groups : Option (List ParsedGroup)
  deriving DecidableEq, Repr

/-- The check that rejects a file, one for each `return { valid: false, ... }`
of `validateFile`, in the order of the source. -/
inductive Rejection
  | apiVersion
  | folders
  | contactPoints
  | policies
  | groups
  | groupName
  | groupFolder
  | groupRules
  | ruleUid
  | ruleTitle
  | ruleCondition
  | ruleData
  deriving DecidableEq, Repr

/-- The result of `validateFile`: `{ valid: true }` or `{ valid: false, error }`,
the error message being identified by the check that produced it. -/
inductive ValidationResult
  | valid
  | invalid (error : Rejection)
  deriving DecidableEq, Repr

/-- The loop over `group.rules` of `validateFile` (lines 55 to 68): the first
check that fails, if any. -/
def checkRules : List ParsedRule → Option Rejection
  | [] => none
  | rule :: rest =>
    if !truthy rule.uid then some .ruleUid
    else if !truthy rule.title then some .ruleTitle
    else if !truthy rule.condition then some .ruleCondition
    else if rule.data.isNone then some .ruleData
    else checkRules rest

/-- The loop over `parsed.groups` of `validateFile` (lines 43 to 69): the first
check that fails, if any. -/
def checkGroups : List ParsedGroup → Option Rejection
  | [] => none
  | group :: rest =>
    if !truthy group.name then some .groupName
    else if !truthy group.folder then some .groupFolder
    else
      match group.rules with
      | none => some .groupRules
      | some rules =>
        match checkRules rules with
        | some error => some error
        | none => checkGroups rest

/-- The function `validateFile`, from the parsed content on (lines 17 to 72);
`fileName` is `basename(filePath)`. -/
def validateFile (fileName : Str) (parsed : ParsedDocument) : ValidationResult :=
  if parsed.apiVersion ≠ some 1 then .invalid .apiVersion
  else if fileName = "folders.yaml".toList && !parsed.folders then .invalid .folders
  else if fileName = "contact-points.yaml".toList && !parsed.contactPoints then
    .invalid .contactPoints
  else if fileName = "notification-policies.yaml".toList && !parsed.policies then
    .invalid .policies
  else if fileName ≠ "folders.yaml".toList ∧ fileName ≠ "contact-points.yaml".toList ∧
      fileName ≠ "notification-policies.yaml".toList then
    match parsed.groups with
    | none => .invalid .groups
    | some groups =>
      match checkGroups groups with
      | some error => .invalid error
      | none => .valid
  else .valid

/-- A converted rule as `validateFile` reads it back from the file. -/
def loadedRule (r : TargetRule) : ParsedRule :=
  { uid := some r.uid, title := some r.title, condition := some r.condition, data := some r.data }

/-- A converted group as `validateFile` reads it back from the file. -/
def loadedGroup (g : TargetGroup) : ParsedGroup :=
  { name := some g.name, folder := some g.folder, rules := some (g.rules.map loadedRule) }

/-- The document that `validateFile` reads back from the file written from
`outputData`: the `dump` and `load` of the YAML library give back every string,
number and sequence as it was written. -/
def loadedDocument (doc : OutputData) : ParsedDocument :=
  { apiVersion := some doc.apiVersion, folders := false, contactPoints := false,
    policies := false, groups := some (doc.groups.map loadedGroup) }

/-! ## Definitions used to state the properties -/

/-- What the text consumed by an atom satisfies. -/
def PieceOK (a : Atom) (p : Str) : Prop :=
  (∀ c ∈ p, a.cls c = true) ∧ a.q.lo ≤ p.length ∧ a.q.hi p.length = p.length

/-- Collapse of every run of `-` into one `-`: a `-` that is followed by a `-` is
dropped. -/
def squeeze : Str → Str
  | [] => []
  | c :: t => if isHyphen c && (t.head?.map isHyphen).getD false then squeeze t else c :: squeeze t

/-- The replacement of one character made by `replace(/[^a-z0-9_-]/g, '-')`. -/
def substChar (c : Char) : Char := if isNotUidChar c then '-' else c

/-- No two `-` in a row. -/
def NoDoubleHyphen (s : Str) : Prop := List.Chain' (fun a b => ¬(a = '-' ∧ b = '-')) s

/-- The six comparison operators `<`, `>`, `<=`, `>=`, `==`, `!=`. -/
def comparisonOperators : List Str :=
  ["<".toList, ">".toList, "<=".toList, ">=".toList, "==".toList, "!=".toList]

/-- A numeric literal: one or more digits, optionally followed by `.` and
digits. -/
def IsNumericLiteral (n : Str) : Prop :=
  ∃ d1 frac, n = d1 ++ frac ∧ d1 ≠ [] ∧ (∀ c ∈ d1, isDigit c = true) ∧
    (frac = [] ∨ ∃ d2, frac = '.' :: d2 ∧ ∀ c ∈ d2, isDigit c = true)

/-- The normalized expression ends with a comparison clause: one or more of the
characters `<`, `>`, `=`, `!`, optional white space, digits with an optional `.`
and optional further digits, optional white space, end of the string. -/
def HasTrailingComparison (s : Str) : Prop :=
  ∃ pre ops ws1 d1 dot d2 ws2, s = pre ++ ops ++ ws1 ++ d1 ++ dot ++ d2 ++ ws2 ∧
    ops ≠ [] ∧ (∀ c ∈ ops, c = '<' ∨ c = '>' ∨ c = '=' ∨ c = '!') ∧
    (∀ c ∈ ws1, isWhiteSpace c = true) ∧
    d1 ≠ [] ∧ (∀ c ∈ d1, isDigit c = true) ∧ (dot = [] ∨ dot = ['.']) ∧
    (∀ c ∈ d2, isDigit c = true) ∧ (∀ c ∈ ws2, isWhiteSpace c = true)

/-- The lines of an expression that are joined: every line is trimmed, and the
empty lines and the marker lines (the lines that start with `|`) are dropped. -/
def keptLines (e : Str) : List Str :=
  ((splitLines e).map trim).filter (fun line => line ≠ [] ∧ line.head? ≠ some '|')

/-- The single-line form of an expression: its kept lines joined with single
spaces. -/
def joinedForm (e : Str) : Str := List.intercalate [' '] (keptLines e)

/-- Prefix `c` to the first line. -/
def consHead (c : Char) : List Str → List Str
  | l :: ls => (c :: l) :: ls
  | [] => [[c]]

/-- A line that is not empty, has no line feed, and neither starts nor ends
with white space. -/
def TrimmedLine (l : Str) : Prop :=
  l ≠ [] ∧ '\n' ∉ l ∧ (∀ c, l.head? = some c → isWhiteSpace c = false) ∧
    (∀ c, l.getLast? = some c → isWhiteSpace c = false)

/-- A rule whose `alert` field is present and not the empty string. -/
def isAlertingRule (r : SourceRule) : Bool := decide (r.alert ≠ none ∧ r.alert ≠ some [])

/-- A name already in uid form: at most 40 characters of `[a-z0-9_-]`, no `--`
and no `-` at the end. -/
def IsNormalUid (s : Str) : Prop :=
  s.length ≤ 40 ∧ (∀ c ∈ s, isUidChar c = true) ∧ NoDoubleHyphen s ∧ s.getLast? ≠ some '-'

/-- The comparison of an expression is not recognised: stage A queries the whole
trimmed expression and stage C evaluates `$B > 0`. -/
def Unrecognised (e : Str) : Prop :=
  ∃ stA stB stC, convertPromQLToGrafanaQuery e = [stA, stB, stC] ∧
    stA.refId = "A".toList ∧ stA.model.expr = some (trim e) ∧
    stC.refId = "C".toList ∧ stC.model.expression = some "$B > 0".toList

/-! ## Lemmas on the matcher -/

theorem hi_le (q : Quant) (n : Nat) : q.hi n ≤ n := by
  cases q <;> simp [Quant.hi]

theorem hi_of_le_hi (q : Quant) {m n : Nat} (h : m ≤ q.hi n) : q.hi m = m := by
  cases q <;> simp [Quant.hi] at h ⊢ <;> omega

theorem take_takeWhile_of_le (p : Char → Bool) :
    ∀ (s : Str) (m : Nat), m ≤ (s.takeWhile p).length → s.take m = (s.takeWhile p).take m
  | [], m, _ => by simp
  | c :: t, 0, _ => by simp
  | c :: t, m + 1, h => by
    by_cases hc : p c = true
    · simp only [List.takeWhile_cons, hc, if_true, List.length_cons] at h ⊢
      simp only [List.take_succ_cons]
      rw [take_takeWhile_of_le p t m (by omega)]
    · simp [List.takeWhile_cons, hc] at h

theorem takeWhile_append_of_stop (p : Char → Bool) (l rest : Str)
    (hl : ∀ c ∈ l, p c = true) (hrest : ∀ c, rest.head? = some c → p c = false) :
    (l ++ rest).takeWhile p = l := by
  induction l with
  | nil =>
    cases rest with
    | nil => simp
    | cons c t => simp [List.takeWhile_cons, hrest c (by simp)]
  | cons c t ih =>
    have hc : p c = true := hl c (by simp)
    simp only [List.cons_append, List.takeWhile_cons, hc, if_true]
    rw [ih (fun d hd => hl d (by simp [hd]))]

theorem tryDown_sound {k : Str → Option (List Str)} {s : Str} {lo n : Nat} {r : List Str}
    (h : tryDown k s lo n = some r) :
    ∃ m r', m ≤ n ∧ lo ≤ m ∧ k (s.drop m) = some r' ∧ r = s.take m :: r' := by
  induction n with
  | zero =>
    simp only [tryDown] at h
    split at h
    · rename_i hlo
      cases hk : k s with
      | none => simp [hk] at h
      | some r' =>
        simp only [hk, Option.map_some', Option.some.injEq] at h
        exact ⟨0, r', le_refl _, by omega, by simpa using hk, by simp [← h]⟩
    · cases h
  | succ n ih =>
    simp only [tryDown] at h
    split at h
    · rename_i hlo
      split at h
      · rename_i r' hk
        cases h
        exact ⟨n + 1, r', le_refl _, hlo, hk, rfl⟩
      · obtain ⟨m, r', hm, hlo', hk, hr⟩ := ih h
        exact ⟨m, r', by omega, hlo', hk, hr⟩
    · cases h

theorem tryDown_first {k : Str → Option (List Str)} {s : Str} {lo n : Nat} {r : List Str}
    (hlo : lo ≤ n) (hk : k (s.drop n) = some r) :
    tryDown k s lo n = some (s.take n :: r) := by
  cases n with
  | zero =>
    have : lo = 0 := by omega
    simp only [List.drop_zero] at hk
    simp [tryDown, this, hk]
  | succ n => simp [tryDown, hlo, hk]

/-- A successful match splits the input into the texts of the atoms, each made
of characters of its class and of an admissible length, followed by a rest that
is empty under `$`. -/
theorem matchHere_sound (atEnd : Bool) :
    ∀ (atoms : List Atom) (s : Str) (ps : List Str), matchHere atEnd atoms s = some ps →
      List.Forall₂ PieceOK atoms ps ∧ ∃ rest, s = ps.flatten ++ rest ∧ (atEnd = true → rest = [])
  | [], s, ps, h => by
    simp only [matchHere] at h
    split at h
    · cases h
    · rename_i hc
      cases h
      refine ⟨List.Forall₂.nil, s, by simp, fun he => ?_⟩
      cases s with
      | nil => rfl
      | cons c t => simp [he] at hc
  | a :: as, s, ps, h => by
    simp only [matchHere] at h
    obtain ⟨m, r', hm, hlo, hk, hr⟩ := tryDown_sound h
    obtain ⟨hf, rest, hs, hend⟩ := matchHere_sound atEnd as (s.drop m) r' hk
    have hm' : m ≤ (s.takeWhile a.cls).length := le_trans hm (hi_le _ _)
    have htake : s.take m = (s.takeWhile a.cls).take m := take_takeWhile_of_le _ _ _ hm'
    have hlen : (s.take m).length = m := by
      rw [htake, List.length_take]; omega
    subst hr
    refine ⟨List.Forall₂.cons ⟨?_, ?_, ?_⟩ hf, rest, ?_, hend⟩
    · intro c hc
      rw [htake] at hc
      exact List.mem_takeWhile_imp (List.mem_of_mem_take hc)
    · rw [hlen]; exact hlo
    · rw [hlen]; exact hi_of_le_hi _ hm
    · rw [List.flatten_cons, List.append_assoc, ← hs, List.take_append_drop]

/-- The greedy choice succeeds at once when the atom can take a whole run `p`
of its class and the remaining atoms match what follows. -/
theorem matchHere_cons_greedy (atEnd : Bool) (a : Atom) (as : List Atom) (p rest : Str)
    (r : List Str) (hp : ∀ c ∈ p, a.cls c = true)
    (hrest : ∀ c, rest.head? = some c → a.cls c = false)
    (hlo : a.q.lo ≤ p.length) (hhi : a.q.hi p.length = p.length)
    (hk : matchHere atEnd as rest = some r) :
    matchHere atEnd (a :: as) (p ++ rest) = some (p :: r) := by
  simp only [matchHere]
  rw [takeWhile_append_of_stop a.cls p rest hp hrest, hhi]
  have h := @tryDown_first (matchHere atEnd as) (p ++ rest) a.q.lo p.length r hlo
    (by simpa using hk)
  simpa using h

theorem search_some {atEnd : Bool} {atoms : List Atom} :
    ∀ {s : Str} {i j : Nat} {ps : List Str}, search atEnd atoms s i = some (j, ps) →
      ∃ k, j = i + k ∧ k ≤ s.length ∧ matchHere atEnd atoms (s.drop k) = some ps ∧
        ∀ k', k' < k → matchHere atEnd atoms (s.drop k') = none
  | [], i, j, ps, h => by
    simp only [search] at h
    cases hm : matchHere atEnd atoms [] with
    | none => simp [hm] at h
    | some ps' =>
      simp only [hm, Option.map_some', Option.some.injEq, Prod.mk.injEq] at h
      exact ⟨0, by omega, by simp, by simpa [← h.2] using hm, fun k' hk' => by omega⟩
  | c :: t, i, j, ps, h => by
    simp only [search] at h
    split at h
    · rename_i ps' hm
      simp only [Option.some.injEq, Prod.mk.injEq] at h
      exact ⟨0, by omega, by simp, by simpa [← h.2] using hm, fun k' hk' => by omega⟩
    · rename_i hm
      obtain ⟨k, hj, hk, hmk, hbefore⟩ := search_some h
      refine ⟨k + 1, by omega, by simp [hk], by simpa using hmk, fun k' hk' => ?_⟩
      cases k' with
      | zero => simpa using hm
      | succ k' => simpa using hbefore k' (by omega)

theorem search_none {atEnd : Bool} {atoms : List Atom} :
    ∀ {s : Str} {i : Nat}, search atEnd atoms s i = none →
      ∀ k, k ≤ s.length → matchHere atEnd atoms (s.drop k) = none
  | [], i, h, k, hk => by
    simp only [search] at h
    cases hm : matchHere atEnd atoms [] with
    | none => simp [hm]
    | some ps' => simp [hm] at h
  | c :: t, i, h, k, hk => by
    simp only [search] at h
    split at h
    · cases h
    · rename_i hm
      cases k with
      | zero => simpa using hm
      | succ k => simpa using search_none h k (by simpa using hk)

theorem search_of_first {atEnd : Bool} {atoms : List Atom} :
    ∀ {s : Str} {i k : Nat} {ps : List Str}, k ≤ s.length →
      matchHere atEnd atoms (s.drop k) = some ps →
      (∀ k', k' < k → matchHere atEnd atoms (s.drop k') = none) →
      search atEnd atoms s i = some (i + k, ps)
  | [], i, k, ps, hk, hm, _ => by
    have : k = 0 := by simpa using hk
    subst this
    simp only [List.drop_zero] at hm
    simp [search, hm]
  | c :: t, i, 0, ps, _, hm, _ => by
    simp only [List.drop_zero] at hm
    simp [search, hm]
  | c :: t, i, k + 1, ps, hk, hm, hbefore => by
    have h0 : matchHere atEnd atoms (c :: t) = none := by simpa using hbefore 0 (by omega)
    simp only [search, h0]
    rw [@search_of_first atEnd atoms t (i + 1) k ps (by simpa using hk)
      (by simpa using hm) (fun k' hk' => by simpa using hbefore (k' + 1) (by omega))]
    simp only [Option.some.injEq, Prod.mk.injEq, and_true]
    omega

/-! ## Lemmas on the regular expressions of `generateUid` -/

theorem matchHere_nil_nil (atEnd : Bool) : matchHere atEnd [] [] = some [] := by
  simp [matchHere]

theorem matchHere_plus_all (cls : Char → Bool) (s : Str) (hne : s ≠ [])
    (hall : ∀ c ∈ s, cls c = true) : matchHere true [⟨cls, .plus⟩] s = some [s] := by
  have h := matchHere_cons_greedy true ⟨cls, .plus⟩ [] s [] [] hall (by simp)
    (by
      cases s with
      | nil => exact absurd rfl hne
      | cons c t => simp [Quant.lo])
    (by simp [Quant.hi]) (matchHere_nil_nil true)
  simpa using h

theorem replaceAllAux_one (cls : Char → Bool) (d : Char) :
    ∀ s : Str, replaceAllAux [⟨cls, .one⟩] [d] 0 s = s.map (fun c => if cls c then d else c)
  | [] => by simp [replaceAllAux, matchHere, tryDown, Quant.lo, Quant.hi]
  | c :: t => by
    by_cases hc : cls c = true
    · have hm : matchHere false [⟨cls, .one⟩] (c :: t) = some [[c]] := by
        have h1 : min 1 ((List.takeWhile cls t).length + 1) = 1 := by omega
        simp [matchHere, tryDown, Quant.lo, Quant.hi, List.takeWhile_cons, hc, h1]
      simp [replaceAllAux, hm, hc, replaceAllAux_one cls d t]
    · have hm : matchHere false [⟨cls, .one⟩] (c :: t) = none := by
        simp [matchHere, tryDown, Quant.lo, Quant.hi, hc]
      simp [replaceAllAux, hm, hc, replaceAllAux_one cls d t]

theorem drop_length_takeWhile (p : Char → Bool) :
    ∀ s : Str, s.drop (s.takeWhile p).length = s.dropWhile p
  | [] => by simp
  | c :: t => by
    by_cases hc : p c = true
    · simp [List.takeWhile_cons, List.dropWhile_cons, hc, drop_length_takeWhile p t]
    · simp [List.takeWhile_cons, List.dropWhile_cons, hc]

theorem rdropWhile_append_of_all (p : Char → Bool) (l r : Str) (h : ∀ c ∈ r, p c = true) :
    (l ++ r).rdropWhile p = l.rdropWhile p := by
  simp only [List.rdropWhile, List.reverse_append]
  rw [List.dropWhile_append_of_pos (fun a ha => h a (by simpa using ha))]

theorem squeeze_hyphen_cons : ∀ t : Str, squeeze ('-' :: t) = '-' :: squeeze (t.dropWhile isHyphen)
  | [] => by simp [squeeze, isHyphen]
  | c :: t => by
    by_cases hc : c = '-'
    · subst hc
      have ih := squeeze_hyphen_cons t
      rw [show squeeze ('-' :: '-' :: t) = squeeze ('-' :: t) by simp [squeeze, isHyphen]]
      rw [ih]
      simp [List.dropWhile_cons, isHyphen]
    · simp [squeeze, isHyphen, List.dropWhile_cons, hc]

theorem matchHere_hyphens_none (atEnd : Bool) (c : Char) (t : Str) (hc : isHyphen c = false) :
    matchHere atEnd [⟨isHyphen, .plus⟩] (c :: t) = none := by
  simp [matchHere, tryDown, Quant.lo, Quant.hi, List.takeWhile_cons, hc]

theorem matchHere_hyphens_some (c : Char) (t : Str) (hc : isHyphen c = true) :
    matchHere false [⟨isHyphen, .plus⟩] (c :: t) = some [(c :: t).takeWhile isHyphen] := by
  have h := matchHere_cons_greedy false ⟨isHyphen, .plus⟩ [] ((c :: t).takeWhile isHyphen)
    ((c :: t).dropWhile isHyphen) []
    (fun d hd => List.mem_takeWhile_imp hd)
    (fun d hd => by
      have := List.head?_dropWhile_not isHyphen (c :: t)
      rw [hd] at this
      simpa using this)
    (by simp [Quant.lo, List.takeWhile_cons, hc])
    (by simp [Quant.hi])
    (by simp [matchHere])
  rwa [List.takeWhile_append_dropWhile] at h

theorem replaceAllAux_hyphens :
    ∀ (s : Str) (skip : Nat), skip ≤ (s.takeWhile isHyphen).length →
      replaceAllAux [⟨isHyphen, .plus⟩] ['-'] skip s = squeeze (s.drop skip)
  | [], 0, _ => by simp [replaceAllAux, matchHere, tryDown, Quant.lo, Quant.hi, squeeze]
  | [], skip + 1, h => by simp at h
  | c :: t, skip + 1, h => by
    by_cases hc : isHyphen c = true
    · simp only [List.takeWhile_cons, hc, if_true, List.length_cons] at h
      simp only [replaceAllAux, List.drop_succ_cons]
      exact replaceAllAux_hyphens t skip (by omega)
    · simp [List.takeWhile_cons, hc] at h
  | c :: t, 0, _ => by
    by_cases hc : isHyphen c = true
    · have hc' : c = '-' := by simpa [isHyphen] using hc
      have hlen : ((c :: t).takeWhile isHyphen).length = (t.takeWhile isHyphen).length + 1 := by
        simp [List.takeWhile_cons, hc]
      simp only [replaceAllAux, matchHere_hyphens_some c t hc, List.flatten_cons,
        List.flatten_nil, List.append_nil, hlen, List.drop_zero]
      simp only [Nat.add_one_ne_zero, if_false, Nat.add_sub_cancel]
      rw [replaceAllAux_hyphens t _ (le_refl _), drop_length_takeWhile, hc', squeeze_hyphen_cons]
      simp
    · have hc' : isHyphen c = false := by simpa using hc
      simp only [replaceAllAux, matchHere_hyphens_none false c t hc', List.drop_zero]
      rw [replaceAllAux_hyphens t 0 (Nat.zero_le _)]
      simp [squeeze, hc']

theorem replaceFirst_hyphens_end (s : Str) :
    replaceFirst true [⟨isHyphen, .plus⟩] [] s = s.rdropWhile isHyphen := by
  have key : ∀ (pre : Str) (c : Char) (suf : Str), isHyphen c = true →
      (∀ d ∈ suf, isHyphen d = true) →
      matchHere true [⟨isHyphen, .plus⟩] ((pre ++ c :: suf).drop pre.length) = some [c :: suf] := by
    intro pre c suf hc hsuf
    rw [List.drop_left]
    exact matchHere_plus_all isHyphen (c :: suf) (by simp) (by
      intro d hd
      rcases List.mem_cons.1 hd with h | h
      · rw [h]; exact hc
      · exact hsuf d h)
  unfold replaceFirst
  cases hs : search true [⟨isHyphen, .plus⟩] s 0 with
  | none =>
    symm
    rw [List.rdropWhile_eq_self_iff]
    intro hl hlast
    obtain ⟨pre, hpre⟩ : ∃ pre, s = pre ++ [s.getLast hl] :=
      ⟨s.dropLast, (List.dropLast_append_getLast hl).symm⟩
    have hm := search_none hs pre.length (by rw [hpre]; simp)
    rw [hpre, key pre _ [] hlast (by simp)] at hm
    cases hm
  | some r =>
    obtain ⟨j, ps⟩ := r
    obtain ⟨k, _, hk, hm, hbefore⟩ := search_some hs
    obtain ⟨hf, rest, hsplit, hend⟩ := matchHere_sound true _ _ _ hm
    have hrest : rest = [] := hend rfl
    obtain ⟨p, hps, hp⟩ : ∃ p, ps = [p] ∧ PieceOK ⟨isHyphen, .plus⟩ p := by
      cases hf with
      | cons h1 h2 =>
        cases h2
        exact ⟨_, rfl, h1⟩
    subst hps hrest
    simp only [List.flatten_cons, List.flatten_nil, List.append_nil] at hsplit ⊢
    have hs' : s = s.take k ++ p := by
      conv_lhs => rw [← List.take_append_drop k s, hsplit]
    have hdrop : s.drop (j + p.length) = [] := by
      have hl : s.length = k + p.length := by
        have := congrArg List.length hsplit
        simp at this
        omega
      apply List.drop_eq_nil_of_le
      omega
    have hj : j = k := by omega
    subst hj
    rw [hdrop]
    simp only [List.append_nil]
    conv_rhs => rw [hs', rdropWhile_append_of_all isHyphen _ _ hp.1]
    symm
    rw [List.rdropWhile_eq_self_iff]
    intro hl hlast
    obtain ⟨pre, hpre⟩ : ∃ pre, s.take j = pre ++ [(s.take j).getLast hl] :=
      ⟨(s.take j).dropLast, (List.dropLast_append_getLast hl).symm⟩
    have hlenpre : pre.length < j := by
      have h1 := congrArg List.length hpre
      simp only [List.length_take, List.length_append, List.length_singleton] at h1
      omega
    have hm' := hbefore pre.length hlenpre
    have hs'' : s = pre ++ (s.take j).getLast hl :: p := by
      conv_lhs => rw [hs', hpre]
      simp
    rw [hs'', key pre _ p hlast hp.1] at hm'
    cases hm'

/-- The value of `generateUid` in closed form: lowercase, substitute, collapse,
truncate, strip. -/
theorem generateUid_eq (lower : Str → Str) (name : Str) :
    generateUid lower name
      = ((squeeze ((lower name).map substChar)).take 40).rdropWhile isHyphen := by
  unfold generateUid
  simp only [replaceFirst_hyphens_end, substring0, replaceAll]
  rw [replaceAllAux_hyphens _ 0 (Nat.zero_le _), replaceAllAux_one]
  rfl

theorem squeeze_head? : ∀ s : Str, (squeeze s).head? = s.head?
  | [] => by simp [squeeze]
  | c :: t => by
    by_cases h : (isHyphen c && (t.head?.map isHyphen).getD false) = true
    · simp only [squeeze, h, if_true]
      rw [squeeze_head? t]
      simp only [Bool.and_eq_true] at h
      cases t with
      | nil => simp at h
      | cons d t' =>
        simp only [isHyphen, List.head?_cons, Option.map_some', Option.getD_some,
          beq_iff_eq] at h
        simp [h.1, h.2]
    · simp [squeeze, h]

theorem squeeze_mem : ∀ (s : Str) (c : Char), c ∈ squeeze s → c ∈ s
  | [], c, h => by simp [squeeze] at h
  | d :: t, c, h => by
    by_cases hd : (isHyphen d && (t.head?.map isHyphen).getD false) = true
    · simp only [squeeze, hd, if_true] at h
      exact List.mem_cons_of_mem _ (squeeze_mem t c h)
    · simp only [squeeze, hd] at h
      rcases List.mem_cons.1 h with h | h
      · simp [h]
      · exact List.mem_cons_of_mem _ (squeeze_mem t c h)

theorem squeeze_noDouble : ∀ s : Str, NoDoubleHyphen (squeeze s)
  | [] => by simp [squeeze, NoDoubleHyphen]
  | c :: t => by
    by_cases h : (isHyphen c && (t.head?.map isHyphen).getD false) = true
    · simp only [squeeze, h, if_true]
      exact squeeze_noDouble t
    · simp only [squeeze, h, Bool.false_eq_true, if_false]
      unfold NoDoubleHyphen
      rw [List.chain'_cons']
      refine ⟨?_, squeeze_noDouble t⟩
      intro y hy
      rw [squeeze_head? t] at hy
      rintro ⟨hc, hy'⟩
      apply h
      have hy2 : t.head? = some y := by simpa using hy
      simp [isHyphen, hc, hy2, hy']

theorem squeeze_of_noDouble : ∀ s : Str, NoDoubleHyphen s → squeeze s = s
  | [], _ => by simp [squeeze]
  | c :: t, h => by
    unfold NoDoubleHyphen at h
    rw [List.chain'_cons'] at h
    have ht := squeeze_of_noDouble t h.2
    by_cases hc : (isHyphen c && (t.head?.map isHyphen).getD false) = true
    · exfalso
      simp only [Bool.and_eq_true] at hc
      cases t with
      | nil => simp at hc
      | cons d t' =>
        simp only [isHyphen, List.head?_cons, Option.map_some', Option.getD_some,
          beq_iff_eq] at hc
        exact h.1 d (by simp) ⟨hc.1, hc.2⟩
    · simp [squeeze, hc, ht]

theorem isUidChar_substChar (c : Char) : isUidChar (substChar c) = true := by
  unfold substChar isNotUidChar
  by_cases h : isUidChar c = true
  · simp [h]
  · simp only [h, Bool.not_false, if_true]
    decide

theorem map_substChar_of_uid (s : Str) (h : ∀ c ∈ s, isUidChar c = true) :
    s.map substChar = s := by
  induction s with
  | nil => rfl
  | cons c t ih =>
    have hc : isUidChar c = true := h c (by simp)
    simp only [List.map_cons]
    rw [ih (fun d hd => h d (by simp [hd]))]
    simp [substChar, isNotUidChar, hc]

/-- The invariants of a generated uid. -/
theorem generateUid_invariants (lower : Str → Str) (name : Str) :
    (generateUid lower name).length ≤ 40 ∧
      (∀ c ∈ generateUid lower name, isUidChar c = true) ∧
      NoDoubleHyphen (generateUid lower name) ∧
      (generateUid lower name).rdropWhile isHyphen = generateUid lower name := by
  rw [generateUid_eq]
  have hpre : ((squeeze ((lower name).map substChar)).take 40).rdropWhile isHyphen
      <+: squeeze ((lower name).map substChar) :=
    ( List.rdropWhile_prefix isHyphen _).trans ( List.take_prefix _ _)
  refine ⟨?_, ?_, ?_, List.rdropWhile_idempotent _ _⟩
  · have h1 := ( List.rdropWhile_prefix isHyphen
      ((squeeze ((lower name).map substChar)).take 40)).length_le
    have h2 : ((squeeze ((lower name).map substChar)).take 40).length ≤ 40 := by
      rw [List.length_take]; omega
    omega
  · intro c hc
    have h1 := squeeze_mem _ _ (hpre.subset hc)
    obtain ⟨d, _, hd⟩ := List.mem_map.1 h1
    rw [← hd]
    exact isUidChar_substChar d
  · exact List.Chain'.prefix (squeeze_noDouble _) hpre

/-! ## Lemmas on the character classes -/

theorem op_cases {c : Char} (h : isOpChar c = true) : c = '<' ∨ c = '>' ∨ c = '=' ∨ c = '!' := by
  simpa [isOpChar, or_assoc] using h

theorem digit_not_ws {c : Char} (h : isDigit c = true) : isWhiteSpace c = false := by
  simp only [isDigit, Bool.and_eq_true, decide_eq_true_eq] at h
  simp only [isWhiteSpace, Bool.or_eq_false_iff, beq_eq_false_iff_ne, Bool.and_eq_false_iff,
    decide_eq_false_iff_not]
  omega

theorem digit_not_dot {c : Char} (h : isDigit c = true) : isDot c = false := by
  cases hd : isDot c with
  | false => rfl
  | true =>
    have : c = '.' := by simpa [isDot] using hd
    subst this
    exact absurd h (by decide)

theorem digit_not_op {c : Char} (h : isDigit c = true) : isOpChar c = false := by
  cases hd : isOpChar c with
  | false => rfl
  | true => rcases op_cases hd with h' | h' | h' | h' <;> subst h' <;> exact absurd h (by decide)

theorem op_not_ws {c : Char} (h : isOpChar c = true) : isWhiteSpace c = false := by
  rcases op_cases h with h | h | h | h <;> subst h <;> decide

theorem ws_not_op {c : Char} (h : isWhiteSpace c = true) : isOpChar c = false := by
  cases h' : isOpChar c with
  | false => rfl
  | true => rw [op_not_ws h'] at h; cases h

theorem ws_not_digit {c : Char} (h : isWhiteSpace c = true) : isDigit c = false := by
  cases h' : isDigit c with
  | false => rfl
  | true => rw [digit_not_ws h'] at h; cases h

theorem dot_eq {c : Char} (h : isDot c = true) : c = '.' := by simpa [isDot] using h

theorem newline_eq {c : Char} (h : isNewline c = true) : c = '\n' := by simpa [isNewline] using h

theorem piece_one {cls : Char → Bool} {p : Str} (h : PieceOK ⟨cls, .one⟩ p) :
    ∃ c, p = [c] ∧ cls c = true := by
  obtain ⟨hall, hlo, hhi⟩ := h
  simp only [Quant.lo, Quant.hi] at hlo hhi
  match p, hall, hlo, hhi with
  | [c], hall, _, _ => exact ⟨c, rfl, hall c (by simp)⟩
  | [], _, hlo, _ => simp at hlo
  | _ :: _ :: _, _, _, hhi => simp at hhi

theorem piece_opt {cls : Char → Bool} {p : Str} (h : PieceOK ⟨cls, .opt⟩ p) :
    p = [] ∨ ∃ c, p = [c] ∧ cls c = true := by
  obtain ⟨hall, _, hhi⟩ := h
  simp only [Quant.hi] at hhi
  match p, hall, hhi with
  | [], _, _ => exact Or.inl rfl
  | [c], hall, _ => exact Or.inr ⟨c, rfl, hall c (by simp)⟩
  | _ :: _ :: _, _, hhi => simp at hhi

theorem piece_plus {cls : Char → Bool} {p : Str} (h : PieceOK ⟨cls, .plus⟩ p) :
    p ≠ [] ∧ ∀ c ∈ p, cls c = true := by
  obtain ⟨hall, hlo, _⟩ := h
  refine ⟨?_, hall⟩
  rintro rfl
  simp [Quant.lo] at hlo

/-! ## Lemmas on the regular expressions of `convertPromQLToGrafanaQuery` -/

/-- A match of `^\|\s*\n` consumes `|`, a run of white space and a line feed. -/
theorem marker_sound {s : Str} {ps : List Str} (h : matchHere false markerPattern s = some ps) :
    ∃ w rest, ps = [['|'], w, ['\n']] ∧ (∀ c ∈ w, isWhiteSpace c = true) ∧
      s = '|' :: (w ++ '\n' :: rest) := by
  obtain ⟨hf, rest, hs, _⟩ := matchHere_sound false _ _ _ h
  unfold markerPattern at hf
  cases hf with
  | cons h0 hf =>
    cases hf with
    | cons h1 hf =>
      cases hf with
      | cons h2 hf =>
        cases hf
        obtain ⟨c0, rfl, hc0⟩ := piece_one h0
        obtain ⟨c2, rfl, hc2⟩ := piece_one h2
        have e0 : c0 = '|' := by simpa [isPipe] using hc0
        have e2 : c2 = '\n' := newline_eq hc2
        subst e0 e2
        exact ⟨_, rest, rfl, h1.1, by simpa using hs⟩

/-- A match of `([<>=!]+)\s*(\d+\.?\d*)\s*$` splits the input into an operator
run, white space, digits, an optional dot, digits and white space. -/
theorem comparison_sound {s : Str} {ps : List Str}
    (h : matchHere true comparisonPattern s = some ps) :
    ∃ ops ws1 d1 dot d2 ws2, ps = [ops, ws1, d1, dot, d2, ws2] ∧
      s = ops ++ (ws1 ++ (d1 ++ (dot ++ (d2 ++ ws2)))) ∧
      ops ≠ [] ∧ (∀ c ∈ ops, isOpChar c = true) ∧ (∀ c ∈ ws1, isWhiteSpace c = true) ∧
      d1 ≠ [] ∧ (∀ c ∈ d1, isDigit c = true) ∧ (dot = [] ∨ dot = ['.']) ∧
      (∀ c ∈ d2, isDigit c = true) ∧ (∀ c ∈ ws2, isWhiteSpace c = true) := by
  obtain ⟨hf, rest, hs, hend⟩ := matchHere_sound true _ _ _ h
  have hrest : rest = [] := hend rfl
  subst hrest
  unfold comparisonPattern at hf
  cases hf with
  | cons h0 hf =>
    cases hf with
    | cons h1 hf =>
      cases hf with
      | cons h2 hf =>
        cases hf with
        | cons h3 hf =>
          cases hf with
          | cons h4 hf =>
            cases hf with
            | cons h5 hf =>
              cases hf
              refine ⟨_, _, _, _, _, _, rfl, by simpa using hs, (piece_plus h0).1,
                (piece_plus h0).2, h1.1, (piece_plus h2).1, (piece_plus h2).2, ?_, h4.1, h5.1⟩
              rcases piece_opt h3 with h | ⟨c, h, hc⟩
              · exact Or.inl h
              · rw [h, dot_eq hc]; exact Or.inr rfl

/-- The expression `([<>=!]+)\s*(\d+\.?\d*)\s*$` matches an operator run, white
space and a numeric literal, and captures them as written. -/
theorem comparison_match (ops ws1 d1 dot d2 : Str) (hops : ops ≠ [])
    (hops' : ∀ c ∈ ops, isOpChar c = true) (hws : ∀ c ∈ ws1, isWhiteSpace c = true)
    (hd1 : d1 ≠ []) (hd1' : ∀ c ∈ d1, isDigit c = true)
    (hdot : (dot = [] ∧ d2 = []) ∨ dot = ['.']) (hd2 : ∀ c ∈ d2, isDigit c = true) :
    matchHere true comparisonPattern (ops ++ (ws1 ++ (d1 ++ (dot ++ d2))))
      = some [ops, ws1, d1, dot, d2, []] := by
  have hlen : ∀ p : Str, p ≠ [] → 1 ≤ p.length := by
    intro p hp
    cases p with
    | nil => exact absurd rfl hp
    | cons c t => simp
  have m5 : matchHere true [⟨isWhiteSpace, .star⟩] [] = some [[]] := by
    simp [matchHere, tryDown, Quant.lo, Quant.hi]
  have m4 : matchHere true [⟨isDigit, .star⟩, ⟨isWhiteSpace, .star⟩] d2 = some [d2, []] := by
    have h := matchHere_cons_greedy true ⟨isDigit, .star⟩ [⟨isWhiteSpace, .star⟩] d2 [] [[]]
      hd2 (by simp) (by simp [Quant.lo]) (by simp [Quant.hi]) m5
    simpa using h
  have m3 : matchHere true [⟨isDot, .opt⟩, ⟨isDigit, .star⟩, ⟨isWhiteSpace, .star⟩] (dot ++ d2)
      = some [dot, d2, []] := by
    refine matchHere_cons_greedy true ⟨isDot, .opt⟩ _ dot d2 _ ?_ ?_ (by simp [Quant.lo]) ?_ m4
    · rcases hdot with ⟨h, _⟩ | h <;> subst h <;> simp [isDot]
    · intro c hc
      exact digit_not_dot (hd2 c (List.mem_of_mem_head? hc))
    · rcases hdot with ⟨h, _⟩ | h <;> subst h <;> simp [Quant.hi]
  have m2 : matchHere true
      [⟨isDigit, .plus⟩, ⟨isDot, .opt⟩, ⟨isDigit, .star⟩, ⟨isWhiteSpace, .star⟩]
      (d1 ++ (dot ++ d2)) = some [d1, dot, d2, []] := by
    refine matchHere_cons_greedy true ⟨isDigit, .plus⟩ _ d1 (dot ++ d2) _ hd1' ?_
      (by simpa [Quant.lo] using hlen d1 hd1) (by simp [Quant.hi]) m3
    intro c hc
    rcases hdot with ⟨h, h'⟩ | h
    · subst h h'; simp at hc
    · subst h
      have : c = '.' := by simpa using hc.symm
      subst this
      decide
  have m1 : matchHere true
      [⟨isWhiteSpace, .star⟩, ⟨isDigit, .plus⟩, ⟨isDot, .opt⟩, ⟨isDigit, .star⟩,
        ⟨isWhiteSpace, .star⟩]
      (ws1 ++ (d1 ++ (dot ++ d2))) = some [ws1, d1, dot, d2, []] := by
    refine matchHere_cons_greedy true ⟨isWhiteSpace, .star⟩ _ ws1 _ _ hws ?_
      (by simp [Quant.lo]) (by simp [Quant.hi]) m2
    intro c hc
    cases d1 with
    | nil => exact absurd rfl hd1
    | cons d t =>
      have : c = d := by simpa using hc.symm
      subst this
      exact digit_not_ws (hd1' c (by simp))
  unfold comparisonPattern
  refine matchHere_cons_greedy true ⟨isOpChar, .plus⟩ _ ops _ _ hops' ?_
    (by simpa [Quant.lo] using hlen ops hops) (by simp [Quant.hi]) m1
  intro c hc
  have hmem : c ∈ ws1 ++ (d1 ++ (dot ++ d2)) := List.mem_of_mem_head? hc
  cases ws1 with
  | nil =>
    cases d1 with
    | nil => exact absurd rfl hd1
    | cons d t =>
      have : c = d := by simpa using hc.symm
      subst this
      exact digit_not_op (hd1' c (by simp))
  | cons w t =>
    have : c = w := by simpa using hc.symm
    subst this
    exact ws_not_op (hws c (by simp))

/-! ## Lemmas on the string methods -/

theorem includes_iff : ∀ (s key : Str), includes s key = true ↔ key <:+: s
  | [], key => by
    cases key <;> simp [includes]
  | c :: t, key => by
    rw [includes, Bool.or_eq_true, List.infix_cons_iff, includes_iff t key,
      List.isPrefixOf_iff_prefix]

theorem includes_singleton (s : Str) (c : Char) : includes s [c] = true ↔ c ∈ s := by
  rw [includes_iff]
  constructor
  · rintro ⟨a, b, h⟩
    rw [← h]
    simp
  · intro h
    obtain ⟨a, b, h⟩ := List.append_of_mem h
    exact ⟨a, b, by rw [h]; simp⟩

theorem trim_subset {s : Str} {c : Char} (h : c ∈ trim s) : c ∈ s :=
  (List.dropWhile_suffix isWhiteSpace).subset
    (( List.rdropWhile_prefix isWhiteSpace _).subset h)

theorem dropWhile_of_head (p : Char → Bool) (R : Str)
    (hhead : ∀ c, R.head? = some c → p c = false) : R.dropWhile p = R := by
  cases R with
  | nil => rfl
  | cons c t => simp [List.dropWhile_cons, hhead c (by simp)]

theorem rdropWhile_of_last (p : Char → Bool) (R : Str)
    (hlast : ∀ c, R.getLast? = some c → p c = false) : R.rdropWhile p = R := by
  rw [List.rdropWhile_eq_self_iff]
  intro hl h
  have := hlast _ (List.getLast?_eq_getLast _ hl)
  rw [this] at h
  cases h

theorem trim_append (A R : Str) (hne : R ≠ [])
    (hhead : ∀ c, R.head? = some c → isWhiteSpace c = false)
    (hlast : ∀ c, R.getLast? = some c → isWhiteSpace c = false) :
    trim (A ++ R) = A.dropWhile isWhiteSpace ++ R := by
  unfold trim
  have h1 : (A ++ R).dropWhile isWhiteSpace = A.dropWhile isWhiteSpace ++ R := by
    rw [List.dropWhile_append]
    split
    · rename_i h
      have : A.dropWhile isWhiteSpace = [] := by simpa using h
      rw [this, dropWhile_of_head _ _ hhead]
      rfl
    · rfl
  rw [h1]
  apply rdropWhile_of_last
  intro c hc
  apply hlast
  rw [List.getLast?_append_of_ne_nil _ hne] at hc
  exact hc

theorem dropWhile_dropWhile (p : Char → Bool) (s : Str) :
    (s.dropWhile p).dropWhile p = s.dropWhile p :=
  dropWhile_of_head p _ (fun c hc => by
    have := List.head?_dropWhile_not p s
    rw [hc] at this
    simpa using this)

theorem trim_dropWhile (s : Str) : trim (s.dropWhile isWhiteSpace) = trim s := by
  unfold trim
  rw [dropWhile_dropWhile]

theorem trim_append_ws (b w : Str) (hw : ∀ c ∈ w, isWhiteSpace c = true) :
    trim (b ++ w) = trim b := by
  unfold trim
  rw [List.dropWhile_append]
  split
  · rename_i h
    have h1 : b.dropWhile isWhiteSpace = [] := by simpa using h
    have h2 : w.dropWhile isWhiteSpace = [] := by
      rw [List.dropWhile_eq_nil_iff]
      exact hw
    rw [h1, h2]
  · exact rdropWhile_append_of_all _ _ _ hw

theorem trim_trim (s : Str) : trim (trim s) = trim s := by
  cases h : trim s with
  | nil => rfl
  | cons c t =>
    rw [← h]
    have hhead : ∀ d, (trim s).head? = some d → isWhiteSpace d = false := by
      intro d hd
      have hpre : trim s <+: s.dropWhile isWhiteSpace := List.rdropWhile_prefix _ _
      obtain ⟨r, hr⟩ := hpre
      have h2 := List.head?_dropWhile_not isWhiteSpace s
      rw [← hr, h] at h2
      rw [h] at hd
      have : c = d := by simpa using hd
      subst this
      simpa using h2
    unfold trim at hhead ⊢
    rw [dropWhile_of_head _ _ hhead, List.rdropWhile_idempotent]

/-! ## The query synthesizer on single-line expressions -/

theorem normalizeExpr_of_no_newline (e : Str) (h : '\n' ∉ e) : normalizeExpr e = trim e := by
  have hm : matchHere false markerPattern e = none := by
    cases hm : matchHere false markerPattern e with
    | none => rfl
    | some ps =>
      obtain ⟨w, rest, _, _, hs⟩ := marker_sound hm
      exfalso
      apply h
      rw [hs]
      simp
  have hinc : includes (trim e) ['\n'] = false := by
    cases hi : includes (trim e) ['\n'] with
    | false => rfl
    | true => exact absurd (trim_subset ((includes_singleton _ _).1 hi)) h
  simp [normalizeExpr, replaceAtStart, hm, hinc]

theorem comparison_not_before (Y : Str) (c o : Char) (tl : Str) (hc : isOpChar c = false)
    (ho : isOpChar o = true) : matchHere true comparisonPattern (Y ++ c :: o :: tl) = none := by
  cases hm : matchHere true comparisonPattern (Y ++ c :: o :: tl) with
  | none => rfl
  | some ps =>
    exfalso
    obtain ⟨ops, ws1, d1, dot, d2, ws2, _, hs, _, hops, hws1, _, hd1, hdot, hd2, hws2⟩ :=
      comparison_sound hm
    have hq : ∀ x ∈ ws1 ++ (d1 ++ (dot ++ (d2 ++ ws2))), isOpChar x = false := by
      intro x hx
      simp only [List.mem_append] at hx
      rcases hx with hx | hx | hx | hx | hx
      · exact ws_not_op (hws1 x hx)
      · exact digit_not_op (hd1 x hx)
      · rcases hdot with h | h
        · rw [h] at hx; cases hx
        · rw [h] at hx
          have : x = '.' := by simpa using hx
          subst this
          decide
      · exact digit_not_op (hd2 x hx)
      · exact ws_not_op (hws2 x hx)
    have hs' : (Y ++ [c]) ++ (o :: tl) = ops ++ (ws1 ++ (d1 ++ (dot ++ (d2 ++ ws2)))) := by
      rw [← hs]; simp
    rcases List.append_eq_append_iff.1 hs' with ⟨a, h1, h2⟩ | ⟨a, h1, h2⟩
    · have : isOpChar c = true := hops c (by rw [h1]; simp)
      rw [hc] at this
      cases this
    · have : isOpChar o = false := hq o (by rw [h2]; simp)
      rw [ho] at this
      cases this

/-- The comparison is found at the end of `X ++ ops ws1 d1 dot d2` when `X` does
not end with an operator character. -/
theorem splitComparison_append (X ops ws1 d1 dot d2 : Str)
    (hX : ∀ c, X.getLast? = some c → isOpChar c = false) (hops : ops ≠ [])
    (hops' : ∀ c ∈ ops, isOpChar c = true) (hws : ∀ c ∈ ws1, isWhiteSpace c = true)
    (hd1 : d1 ≠ []) (hd1' : ∀ c ∈ d1, isDigit c = true)
    (hdot : (dot = [] ∧ d2 = []) ∨ dot = ['.']) (hd2 : ∀ c ∈ d2, isDigit c = true) :
    splitComparison (X ++ (ops ++ (ws1 ++ (d1 ++ (dot ++ d2)))))
      = (trim X, "$B ".toList ++ ops ++ " ".toList ++ (d1 ++ dot ++ d2)) := by
  have hm := comparison_match ops ws1 d1 dot d2 hops hops' hws hd1 hd1' hdot hd2
  have hsearch : search true comparisonPattern (X ++ (ops ++ (ws1 ++ (d1 ++ (dot ++ d2))))) 0
      = some (0 + X.length, [ops, ws1, d1, dot, d2, []]) := by
    apply search_of_first
    · simp
    · rw [List.drop_left]; exact hm
    · intro k hk
      rw [List.drop_append_of_le_length (by omega)]
      have hne : X.drop k ≠ [] := by
        intro h
        have := congrArg List.length h
        simp at this
        omega
      have hlast : (X.drop k).getLast? = X.getLast? := by
        rw [List.getLast?_drop]
        simp [Nat.not_le.2 hk]
      obtain ⟨o, tl, ho⟩ : ∃ o tl, ops = o :: tl := by
        cases ops with
        | nil => exact absurd rfl hops
        | cons o tl => exact ⟨o, tl, rfl⟩
      rw [← List.dropLast_append_getLast hne, ho]
      have hc : isOpChar ((X.drop k).getLast hne) = false :=
        hX _ (by rw [← hlast]; exact List.getLast?_eq_getLast _ hne)
      have := comparison_not_before (X.drop k).dropLast ((X.drop k).getLast hne) o
        (tl ++ (ws1 ++ (d1 ++ (dot ++ d2)))) hc (hops' o (by rw [ho]; simp))
      simpa using this
  simp only [splitComparison, hsearch, substring0, Nat.zero_add, List.take_left]
  simp

theorem operator_facts {op : Str} (hop : op ∈ comparisonOperators) :
    op ≠ [] ∧ ∀ c ∈ op, isOpChar c = true := by
  simp only [comparisonOperators, List.mem_cons, List.mem_singleton, List.not_mem_nil,
    or_false] at hop
  rcases hop with h | h | h | h | h | h <;> subst h <;> decide

theorem numeric_facts {n : Str} (hn : IsNumericLiteral n) :
    ∃ d1 dot d2, n = d1 ++ (dot ++ d2) ∧ d1 ≠ [] ∧ (∀ c ∈ d1, isDigit c = true) ∧
      ((dot = [] ∧ d2 = []) ∨ dot = ['.']) ∧ (∀ c ∈ d2, isDigit c = true) := by
  obtain ⟨d1, frac, hn, hd1, hd1', hfrac⟩ := hn
  rcases hfrac with h | ⟨d2, h, hd2⟩
  · exact ⟨d1, [], [], by simp [hn, h], hd1, hd1', Or.inl ⟨rfl, rfl⟩, by simp⟩
  · exact ⟨d1, ['.'], d2, by simp [hn, h], hd1, hd1', Or.inr rfl, hd2⟩

theorem numeric_char {d1 dot d2 : Str} (hd1 : ∀ c ∈ d1, isDigit c = true)
    (hdot : (dot = [] ∧ d2 = []) ∨ dot = ['.']) (hd2 : ∀ c ∈ d2, isDigit c = true)
    {c : Char} (hc : c ∈ d1 ++ (dot ++ d2)) : isDigit c = true ∨ c = '.' := by
  simp only [List.mem_append] at hc
  rcases hc with h | h | h
  · exact Or.inl (hd1 c h)
  · rcases hdot with ⟨h', _⟩ | h'
    · rw [h'] at h; cases h
    · rw [h'] at h
      exact Or.inr (by simpa using h)
  · exact Or.inl (hd2 c h)

theorem numeric_char_not_ws {c : Char} (h : isDigit c = true ∨ c = '.') :
    isWhiteSpace c = false ∧ c ≠ '\n' := by
  rcases h with h | h
  · refine ⟨digit_not_ws h, ?_⟩
    rintro rfl
    exact absurd h (by decide)
  · subst h
    decide

theorem not_trailing_of_last {s : Str} {c : Char} (hlast : s.getLast? = some c)
    (hws : isWhiteSpace c = false) (hd : isDigit c = false) (hdot : c ≠ '.') :
    ¬HasTrailingComparison s := by
  rintro ⟨pre, ops, ws1, d1, dot, d2, ws2, hs, _, _, _, hd1, hd1', hdot', hd2, hws2⟩
  have hne : d1 ++ dot ++ d2 ++ ws2 ≠ [] := by simpa using fun h => absurd h hd1
  have hs' : s = (pre ++ ops ++ ws1) ++ (d1 ++ dot ++ d2 ++ ws2) := by
    rw [hs]; simp [List.append_assoc]
  rw [hs', List.getLast?_append_of_ne_nil _ hne] at hlast
  have hmem := List.mem_of_getLast?_eq_some hlast
  simp only [List.mem_append] at hmem
  rcases hmem with ((h | h) | h) | h
  · rw [hd1' c h] at hd; cases hd
  · rcases hdot' with h' | h'
    · rw [h'] at h; cases h
    · rw [h'] at h
      exact hdot (by simpa using h)
  · rw [hd2 c h] at hd; cases hd
  · rw [hws2 c h] at hws; cases hws

theorem splitComparison_of_not_trailing (s : Str) (h : ¬HasTrailingComparison s) :
    splitComparison s = (s, "$B > 0".toList) := by
  cases hs : search true comparisonPattern s 0 with
  | none => simp [splitComparison, hs]
  | some r =>
    exfalso
    obtain ⟨j, ps⟩ := r
    obtain ⟨k, _, _, hm, _⟩ := search_some hs
    obtain ⟨ops, ws1, d1, dot, d2, ws2, _, hsplit, hops, hops', hws1, hd1, hd1', hdot, hd2,
      hws2⟩ := comparison_sound hm
    apply h
    refine ⟨s.take k, ops, ws1, d1, dot, d2, ws2, ?_, hops, fun c hc => op_cases (hops' c hc),
      hws1, hd1, hd1', hdot, hd2, hws2⟩
    conv_lhs => rw [← List.take_append_drop k s, hsplit]
    simp [List.append_assoc]

/-! ## Lemmas on lines -/

theorem splitLines_ne_nil : ∀ s : Str, splitLines s ≠ []
  | [] => by simp [splitLines]
  | c :: t => by
    by_cases hc : c = '\n'
    · simp [splitLines, hc]
    · have := splitLines_ne_nil t
      cases h : splitLines t with
      | nil => exact absurd h this
      | cons l ls => simp [splitLines, hc, h]

theorem splitLines_cons_of_ne (c : Char) (t : Str) (hc : c ≠ '\n') :
    splitLines (c :: t) = consHead c (splitLines t) := by
  cases h : splitLines t <;> simp [splitLines, hc, h, consHead]

theorem splitLines_newline_cons (t : Str) : splitLines ('\n' :: t) = [] :: splitLines t := by
  simp [splitLines]

theorem consHead_append (c : Char) (A B : List Str) (hA : A ≠ []) :
    consHead c (A ++ B) = consHead c A ++ B := by
  cases A with
  | nil => exact absurd rfl hA
  | cons l ls => rfl

theorem splitLines_append_newline :
    ∀ a b : Str, splitLines (a ++ '\n' :: b) = splitLines a ++ splitLines b
  | [], b => by simp [splitLines]
  | c :: a, b => by
    by_cases hc : c = '\n'
    · subst hc
      simp only [List.cons_append, splitLines_newline_cons, splitLines_append_newline a b]
    · simp only [List.cons_append, splitLines_cons_of_ne _ _ hc, splitLines_append_newline a b,
        consHead_append _ _ _ (splitLines_ne_nil a)]

theorem splitLines_mem : ∀ (s l : Str), l ∈ splitLines s → ∀ c ∈ l, c ∈ s ∧ c ≠ '\n'
  | [], l, hl, c, hc => by
    simp only [splitLines, List.mem_singleton] at hl
    subst hl
    cases hc
  | d :: t, l, hl, c, hc => by
    by_cases hd : d = '\n'
    · subst hd
      rw [splitLines_newline_cons] at hl
      rcases List.mem_cons.1 hl with h | h
      · subst h; cases hc
      · have := splitLines_mem t l h c hc
        exact ⟨List.mem_cons_of_mem _ this.1, this.2⟩
    · rw [splitLines_cons_of_ne _ _ hd] at hl
      cases hsp : splitLines t with
      | nil => exact absurd hsp (splitLines_ne_nil t)
      | cons l0 ls =>
        rw [hsp] at hl
        simp only [consHead] at hl
        rcases List.mem_cons.1 hl with h | h
        · subst h
          rcases List.mem_cons.1 hc with h' | h'
          · subst h'
            exact ⟨by simp, hd⟩
          · have := splitLines_mem t l0 (by rw [hsp]; simp) c h'
            exact ⟨List.mem_cons_of_mem _ this.1, this.2⟩
        · have := splitLines_mem t l (by rw [hsp]; exact List.mem_cons_of_mem _ h) c hc
          exact ⟨List.mem_cons_of_mem _ this.1, this.2⟩

theorem splitLines_of_no_newline : ∀ s : Str, '\n' ∉ s → splitLines s = [s]
  | [], _ => rfl
  | c :: t, h => by
    have hc : c ≠ '\n' := fun hc => h (by simp [hc])
    have ht : '\n' ∉ t := fun ht => h (List.mem_cons_of_mem _ ht)
    rw [splitLines_cons_of_ne _ _ hc, splitLines_of_no_newline t ht]
    rfl

theorem trim_of_all_ws (l : Str) (h : ∀ c ∈ l, isWhiteSpace c = true) : trim l = [] := by
  unfold trim
  rw [(List.dropWhile_eq_nil_iff).2 h]
  rfl

theorem trim_cons_ws (c : Char) (l : Str) (hc : isWhiteSpace c = true) :
    trim (c :: l) = trim l := by
  unfold trim
  rw [List.dropWhile_cons_of_pos hc]

theorem keptLines_append_newline (a b : Str) :
    keptLines (a ++ '\n' :: b) = keptLines a ++ keptLines b := by
  simp [keptLines, splitLines_append_newline]

theorem keptLines_nil : keptLines [] = [] := by
  simp [keptLines, splitLines, trim]

theorem keptLines_of_all_ws (w : Str) (h : ∀ c ∈ w, isWhiteSpace c = true) :
    keptLines w = [] := by
  unfold keptLines
  rw [List.filter_eq_nil_iff]
  intro l hl
  obtain ⟨l0, hl0, rfl⟩ := List.mem_map.1 hl
  have : trim l0 = [] := trim_of_all_ws l0 (fun c hc => h c (splitLines_mem w l0 hl0 c hc).1)
  simp [this]

theorem map_trim_consHead (c : Char) (L : List Str) (hL : L ≠ [])
    (hc : isWhiteSpace c = true) : (consHead c L).map trim = L.map trim := by
  cases L with
  | nil => exact absurd rfl hL
  | cons l ls => simp [consHead, trim_cons_ws c l hc]

theorem keptLines_ws_append :
    ∀ (w s : Str), (∀ c ∈ w, isWhiteSpace c = true) → keptLines (w ++ s) = keptLines s
  | [], s, _ => rfl
  | c :: w, s, h => by
    have ih := keptLines_ws_append w s (fun d hd => h d (List.mem_cons_of_mem _ hd))
    by_cases hc : c = '\n'
    · subst hc
      have := keptLines_append_newline [] (w ++ s)
      simp only [List.nil_append, keptLines_nil] at this
      rw [List.cons_append, this, ih]
    · unfold keptLines at ih ⊢
      rw [List.cons_append, splitLines_cons_of_ne _ _ hc,
        map_trim_consHead _ _ (splitLines_ne_nil _) (h c (by simp)), ih]

theorem splitLines_concat_rel (c : Char) (hc : c ≠ '\n') :
    ∀ s : Str, List.Forall₂ (fun l l' => l' = l ∨ l' = l ++ [c])
      (splitLines s) (splitLines (s ++ [c]))
  | [] => by
    simp [splitLines, hc]
  | d :: t => by
    have ih := splitLines_concat_rel c hc t
    by_cases hd : d = '\n'
    · subst hd
      simp only [List.cons_append, splitLines_newline_cons]
      exact List.Forall₂.cons (Or.inl rfl) ih
    · simp only [List.cons_append, splitLines_cons_of_ne _ _ hd]
      cases hL : splitLines t with
      | nil => exact absurd hL (splitLines_ne_nil t)
      | cons l ls =>
        cases hL' : splitLines (t ++ [c]) with
        | nil => exact absurd hL' (splitLines_ne_nil _)
        | cons l' ls' =>
          rw [hL, hL'] at ih
          cases ih with
          | cons h1 h2 =>
            simp only [consHead]
            refine List.Forall₂.cons ?_ h2
            rcases h1 with h | h
            · exact Or.inl (by rw [h])
            · exact Or.inr (by rw [h]; rfl)

theorem keptLines_concat_ws (s : Str) (c : Char) (hc : isWhiteSpace c = true) :
    keptLines (s ++ [c]) = keptLines s := by
  by_cases hn : c = '\n'
  · subst hn
    rw [keptLines_append_newline, keptLines_nil, List.append_nil]
  · unfold keptLines
    congr 1
    have hrel := splitLines_concat_rel c hn s
    generalize splitLines s = L at hrel
    generalize splitLines (s ++ [c]) = L' at hrel
    induction hrel with
    | nil => rfl
    | cons h1 _ ih =>
      simp only [List.map_cons, ih]
      rcases h1 with h | h
      · rw [h]
      · rw [h, trim_append_ws _ [c] (by simpa using hc)]

theorem keptLines_append_ws :
    ∀ (w s : Str), (∀ c ∈ w, isWhiteSpace c = true) → keptLines (s ++ w) = keptLines s
  | [], s, _ => by simp
  | c :: w, s, h => by
    have : s ++ c :: w = (s ++ [c]) ++ w := by simp
    rw [this, keptLines_append_ws w (s ++ [c]) (fun d hd => h d (List.mem_cons_of_mem _ hd)),
      keptLines_concat_ws s c (h c (by simp))]

theorem keptLines_trim (s : Str) : keptLines (trim s) = keptLines s := by
  have h1 : keptLines s = keptLines (s.dropWhile isWhiteSpace) := by
    conv_lhs => rw [← List.takeWhile_append_dropWhile isWhiteSpace s]
    exact keptLines_ws_append _ _ (fun c hc => List.mem_takeWhile_imp hc)
  have h2 : ∀ t : Str, t = t.rdropWhile isWhiteSpace
      ++ (t.reverse.takeWhile isWhiteSpace).reverse := by
    intro t
    have := List.takeWhile_append_dropWhile isWhiteSpace t.reverse
    have h3 := congrArg List.reverse this
    simp only [List.reverse_append, List.reverse_reverse] at h3
    exact h3.symm
  rw [h1]
  conv_rhs => rw [h2 (s.dropWhile isWhiteSpace)]
  unfold trim
  symm
  apply keptLines_append_ws
  intro c hc
  exact List.mem_takeWhile_imp (List.mem_reverse.1 hc)

theorem keptLines_marker (w : Str) (hw : ∀ c ∈ w, isWhiteSpace c = true) :
    keptLines ('|' :: w) = [] := by
  unfold keptLines
  rw [List.filter_eq_nil_iff]
  intro l hl
  obtain ⟨l0, hl0, rfl⟩ := List.mem_map.1 hl
  rw [splitLines_cons_of_ne _ _ (by decide)] at hl0
  cases hL : splitLines w with
  | nil => exact absurd hL (splitLines_ne_nil w)
  | cons l1 ls =>
    have hall : ∀ l ∈ splitLines w, ∀ c ∈ l, isWhiteSpace c = true :=
      fun l hl c hc => hw c (splitLines_mem w l hl c hc).1
    rw [hL] at hl0 hall
    simp only [consHead] at hl0
    rcases List.mem_cons.1 hl0 with h | h
    · subst h
      have : trim ('|' :: l1) = ['|'] := by
        unfold trim
        rw [List.dropWhile_cons_of_neg (by decide)]
        have := rdropWhile_append_of_all isWhiteSpace ['|'] l1 (hall l1 (by simp))
        simp only [List.singleton_append] at this
        rw [this]
        decide
      simp [this]
    · have : trim l0 = [] := trim_of_all_ws l0 (hall l0 (List.mem_cons_of_mem _ h))
      simp [this]

theorem keptLines_stripMarker (e : Str) :
    keptLines (replaceAtStart markerPattern [] e) = keptLines e := by
  unfold replaceAtStart
  cases hm : matchHere false markerPattern e with
  | none => rfl
  | some ps =>
    obtain ⟨w, rest, hps, hw, he⟩ := marker_sound hm
    have hdrop : e.drop ps.flatten.length = rest := by
      rw [hps, he]
      have : '|' :: (w ++ '\n' :: rest) = ('|' :: (w ++ ['\n'])) ++ rest := by simp
      rw [this]
      apply List.drop_left'
      simp
    simp only [List.nil_append, hdrop]
    have : e = ('|' :: w) ++ '\n' :: rest := by rw [he]; simp
    rw [this, keptLines_append_newline, keptLines_marker w hw, List.nil_append]

theorem keepLine_eq (line : Str) :
    keepLine line = decide (line ≠ [] ∧ line.head? ≠ some '|') := by
  cases line with
  | nil => simp [keepLine]
  | cons c t =>
    by_cases hc : c = '|'
    · simp [keepLine, startsWith, List.isPrefixOf, hc]
    · have hc' : ¬('|' = c) := fun h => hc h.symm
      simp [keepLine, startsWith, List.isPrefixOf, hc, hc']

theorem normalizeExpr_unfold (e : Str) :
    normalizeExpr e =
      if '\n' ∈ trim (replaceAtStart markerPattern [] e) then joinedForm e
      else trim (replaceAtStart markerPattern [] e) := by
  have hk : keepLine = fun line => decide (line ≠ [] ∧ line.head? ≠ some '|') :=
    funext keepLine_eq
  unfold normalizeExpr
  simp only []
  by_cases h : '\n' ∈ trim (replaceAtStart markerPattern [] e)
  · rw [if_pos ((includes_singleton _ _).2 h), if_pos h]
    unfold joinedForm joinSpace
    rw [← keptLines_stripMarker e, ← keptLines_trim, hk]
    rfl
  · have : ¬(includes (trim (replaceAtStart markerPattern [] e)) ['\n'] = true) :=
      fun hi => h ((includes_singleton _ _).1 hi)
    rw [if_neg this, if_neg h]

theorem trim_head (x : Str) (c : Char) (h : (trim x).head? = some c) :
    isWhiteSpace c = false := by
  have hpre : trim x <+: x.dropWhile isWhiteSpace := List.rdropWhile_prefix _ _
  obtain ⟨r, hr⟩ := hpre
  have h2 := List.head?_dropWhile_not isWhiteSpace x
  cases ht : trim x with
  | nil => rw [ht] at h; cases h
  | cons d t =>
    rw [ht] at h hr
    rw [← hr] at h2
    have : d = c := by simpa using h
    subst this
    simpa using h2

theorem trim_last (x : Str) (c : Char) (h : (trim x).getLast? = some c) :
    isWhiteSpace c = false := by
  have hne : trim x ≠ [] := by
    intro h0
    rw [h0] at h
    cases h
  have h1 := List.rdropWhile_last_not isWhiteSpace (x.dropWhile isWhiteSpace) hne
  have h2 : (trim x).getLast hne = c := by
    have := List.getLast?_eq_getLast _ hne
    rw [h] at this
    exact (Option.some.inj this).symm
  unfold trim at h2
  rw [h2] at h1
  simpa using h1

theorem trim_of_trimmedLine (l : Str) (h : TrimmedLine l) : trim l = l := by
  unfold trim
  rw [dropWhile_of_head _ _ h.2.2.1, rdropWhile_of_last _ _ h.2.2.2]

theorem keptLines_trimmed (e l : Str) (hl : l ∈ keptLines e) : TrimmedLine l := by
  unfold keptLines at hl
  obtain ⟨hmem, hkeep⟩ := List.mem_filter.1 hl
  have hne : l ≠ [] := (of_decide_eq_true hkeep).1
  obtain ⟨l0, hl0, rfl⟩ := List.mem_map.1 hmem
  refine ⟨hne, ?_, trim_head l0, trim_last l0⟩
  intro hn
  exact (splitLines_mem e l0 hl0 _ (trim_subset hn)).2 rfl

theorem intercalate_trimmed :
    ∀ L : List Str, (∀ l ∈ L, TrimmedLine l) →
      List.intercalate [' '] L = [] ∨ TrimmedLine (List.intercalate [' '] L)
  | [], _ => Or.inl rfl
  | [l], h => by
    right
    have : List.intercalate [' '] [l] = l := by simp [List.intercalate]
    rw [this]
    exact h l (by simp)
  | l :: l' :: ls, h => by
    right
    have hl := h l (by simp)
    have ih := intercalate_trimmed (l' :: ls) (fun x hx => h x (List.mem_cons_of_mem _ hx))
    have hJ : List.intercalate [' '] (l :: l' :: ls)
        = l ++ ([' '] ++ List.intercalate [' '] (l' :: ls)) := by
      simp [List.intercalate]
    have hl' := h l' (by simp)
    have hne' : List.intercalate [' '] (l' :: ls) ≠ [] := by
      cases hd : l' with
      | nil => exact absurd hd hl'.1
      | cons c t =>
        cases ls <;> simp [List.intercalate]
    rcases ih with ih | ih
    · exact absurd ih hne'
    · rw [hJ]
      refine ⟨by simp [hl.1], ?_, ?_, ?_⟩
      · intro hn
        simp only [List.mem_append, List.mem_singleton] at hn
        rcases hn with hn | hn | hn
        · exact hl.2.1 hn
        · exact absurd hn (by decide)
        · exact ih.2.1 hn
      · intro c hc
        apply hl.2.2.1
        cases hd : l with
        | nil => exact absurd hd hl.1
        | cons d t =>
          rw [hd] at hc
          simpa using hc
      · intro c hc
        apply ih.2.2.2
        rw [List.getLast?_append_of_ne_nil _ (by simp),
          List.getLast?_append_of_ne_nil _ hne'] at hc
        exact hc

theorem normalizeExpr_joinedForm (e : Str) : normalizeExpr (joinedForm e) = joinedForm e := by
  rcases intercalate_trimmed (keptLines e) (keptLines_trimmed e) with h | h
  · unfold joinedForm
    rw [h]
    decide
  · have h' : TrimmedLine (joinedForm e) := h
    rw [normalizeExpr_of_no_newline _ h'.2.1, trim_of_trimmedLine _ h']

theorem normalizeExpr_eq_joinedForm (e : Str)
    (h : '\n' ∈ trim (replaceAtStart markerPattern [] e) ∨
      (trim (replaceAtStart markerPattern [] e)).head? ≠ some '|') :
    normalizeExpr e = joinedForm e := by
  rw [normalizeExpr_unfold]
  by_cases hn : '\n' ∈ trim (replaceAtStart markerPattern [] e)
  · rw [if_pos hn]
  · rw [if_neg hn]
    have hhead : (trim (replaceAtStart markerPattern [] e)).head? ≠ some '|' := by
      rcases h with h | h
      · exact absurd h hn
      · exact h
    unfold joinedForm
    rw [← keptLines_stripMarker e, ← keptLines_trim]
    have htt := trim_trim (replaceAtStart markerPattern [] e)
    generalize trim (replaceAtStart markerPattern [] e) = e1 at hn hhead htt
    unfold keptLines
    rw [splitLines_of_no_newline e1 hn]
    simp only [List.map_cons, List.map_nil, htt]
    by_cases h0 : e1 = []
    · subst h0
      rfl
    · have hf : List.filter (fun line : Str => decide (line ≠ [] ∧ line.head? ≠ some '|')) [e1]
          = [e1] := by
        simp [List.filter, h0, hhead]
      rw [hf]
      simp [List.intercalate]

/-! ## Lemmas on lowercasing, rules and groups -/

theorem asciiLower_of_uid (s : Str) (h : ∀ c ∈ s, isUidChar c = true) : asciiLower s = s := by
  induction s with
  | nil => rfl
  | cons c t ih =>
    have hc : isUidChar c = true := h c (by simp)
    have hlow : c.toLower = c := by
      simp only [isUidChar, Bool.or_eq_true, Bool.and_eq_true, decide_eq_true_eq,
        beq_iff_eq] at hc
      have hv : ¬(65 ≤ c.toNat ∧ c.toNat ≤ 90) := by
        rintro ⟨h1, h2⟩
        rcases hc with ((hc | hc) | hc) | hc
        · omega
        · omega
        · subst hc; revert h2; decide
        · subst hc; revert h1; decide
      unfold Char.toLower
      exact if_neg hv
    simp only [asciiLower, List.map_cons, hlow]
    exact congrArg (c :: ·) (ih (fun d hd => h d (by simp [hd])))

theorem orElse_nil (v : Option Str) : orElse v [] = v.getD [] := by
  cases v with
  | none => rfl
  | some s => cases s <;> rfl

theorem find?_first {α : Type} (p : α → Bool) (pre : List α) (x : α) (post : List α)
    (hpre : ∀ y ∈ pre, p y = false) (hx : p x = true) :
    (pre ++ x :: post).find? p = some x := by
  induction pre with
  | nil => simp [List.find?, hx]
  | cons y t ih =>
    have hy : p y = false := hpre y (by simp)
    simp only [List.cons_append, List.find?, hy]
    exact ih (fun z hz => hpre z (List.mem_cons_of_mem _ hz))

theorem truthy_eq_isAlertingRule (r : SourceRule) : truthy r.alert = isAlertingRule r := by
  unfold truthy isAlertingRule
  cases h : r.alert with
  | none => simp
  | some a => cases a <;> simp

theorem convertRule_isSome (lower : Str → Str) (r : SourceRule) (ha : truthy r.alert = true)
    (he : r.expr.isSome = true) : ∃ out, convertRule lower r = some out := by
  unfold convertRule
  cases h1 : r.alert with
  | none => rw [h1] at ha; cases ha
  | some a =>
    cases h2 : r.expr with
    | none => rw [h2] at he; cases he
    | some e => exact ⟨_, rfl⟩

theorem convertRules_spec (lower : Str → Str) :
    ∀ (rules : List SourceRule) (acc : List TargetRule),
      (∀ r ∈ rules, truthy r.alert = true → r.expr.isSome = true) →
      ∃ out, convertRules lower rules acc = some out ∧
        out.map some = acc.map some ++ (rules.filter isAlertingRule).map (convertRule lower)
  | [], acc, _ => ⟨acc, rfl, by simp⟩
  | r :: rest, acc, h => by
    have hrest : ∀ x ∈ rest, truthy x.alert = true → x.expr.isSome = true :=
      fun x hx => h x (List.mem_cons_of_mem _ hx)
    by_cases ha : truthy r.alert = true
    · obtain ⟨o, ho⟩ := convertRule_isSome lower r ha (h r (by simp) ha)
      obtain ⟨out, hout, hmap⟩ := convertRules_spec lower rest (acc ++ [o]) hrest
      refine ⟨out, ?_, ?_⟩
      · simp only [convertRules, ha, if_true, ho]
        exact hout
      · have hf : isAlertingRule r = true := by rw [← truthy_eq_isAlertingRule]; exact ha
        rw [hmap, List.filter_cons_of_pos hf]
        simp [ho]
    · obtain ⟨out, hout, hmap⟩ := convertRules_spec lower rest acc hrest
      refine ⟨out, ?_, ?_⟩
      · simp only [convertRules, ha]
        exact hout
      · have hf : ¬(isAlertingRule r = true) := by rw [← truthy_eq_isAlertingRule]; exact ha
        rw [hmap, List.filter_cons_of_neg hf]

theorem convertRule_some_expr (lower : Str → Str) (r : SourceRule) (o : TargetRule)
    (h : convertRule lower r = some o) : r.expr.isSome = true := by
  unfold convertRule at h
  cases h1 : r.alert with
  | none => simp [h1] at h
  | some a =>
    cases h2 : r.expr with
    | none => simp [h1, h2] at h
    | some e => rfl

theorem convertRules_some_expr (lower : Str → Str) :
    ∀ (rules : List SourceRule) (acc out : List TargetRule),
      convertRules lower rules acc = some out →
      ∀ r ∈ rules, isAlertingRule r = true → r.expr.isSome = true
  | [], _, _, _, r, hr, _ => by cases hr
  | x :: rest, acc, out, h, r, hr, ha => by
    by_cases hx : truthy x.alert = true
    · simp only [convertRules, hx, if_true] at h
      cases hc : convertRule lower x with
      | none => simp [hc] at h
      | some o =>
        simp only [hc] at h
        rcases List.mem_cons.1 hr with hr | hr
        · subst hr
          exact convertRule_some_expr lower r o hc
        · exact convertRules_some_expr lower rest _ out h r hr ha
    · simp only [convertRules, hx] at h
      rcases List.mem_cons.1 hr with hr | hr
      · subst hr
        rw [← truthy_eq_isAlertingRule] at ha
        exact absurd ha hx
      · exact convertRules_some_expr lower rest _ out h r hr ha

theorem convertGroup_of_rules (lower : Str → Str) (group : SourceGroup) (rs : List TargetRule)
    (h : convertRules lower (group.rules.getD []) [] = some rs) :
    convertGroup lower group = some
      { orgId := 1, name := group.name
        folder :=
          match group.rules.getD [] with
          | [] => "applications".toList
          | first :: _ => determineFolder lower first
        interval := orElse group.interval "30s".toList, rules := rs } := by
  simp only [convertGroup, h]

theorem convertGroup_fields (lower : Str → Str) (group : SourceGroup) (out : TargetGroup)
    (h : convertGroup lower group = some out) :
    out.orgId = 1 ∧ out.name = group.name ∧ out.interval = orElse group.interval "30s".toList ∧
      out.folder =
        (match group.rules.getD [] with
          | [] => "applications".toList
          | first :: _ => determineFolder lower first) ∧
      convertRules lower (group.rules.getD []) [] = some out.rules := by
  cases hr : convertRules lower (group.rules.getD []) [] with
  | none => simp [convertGroup, hr] at h
  | some rs =>
    rw [convertGroup_of_rules lower group rs hr] at h
    cases h
    exact ⟨rfl, rfl, rfl, rfl, rfl⟩

theorem convertGroup_isSome (lower : Str → Str) (group : SourceGroup)
    (hexpr : ∀ r ∈ group.rules.getD [], isAlertingRule r = true → r.expr.isSome = true) :
    ∃ out, convertGroup lower group = some out := by
  obtain ⟨rs, hrs, _⟩ := convertRules_spec lower (group.rules.getD []) []
    (fun r hr ht => hexpr r hr (by rw [← truthy_eq_isAlertingRule]; exact ht))
  exact ⟨_, convertGroup_of_rules lower group rs hrs⟩

theorem convertGroups_spec (lower : Str → Str) :
    ∀ (groups : List SourceGroup) (acc : List TargetGroup),
      (∀ g ∈ groups, ∀ r ∈ g.rules.getD [], isAlertingRule r = true → r.expr.isSome = true) →
      ∃ outs, convertGroups lower groups acc = some (acc ++ outs) ∧
        List.Forall₂ (fun g out => convertGroup lower g = some out) groups outs
  | [], acc, _ => ⟨[], by simp [convertGroups], List.Forall₂.nil⟩
  | g :: rest, acc, h => by
    obtain ⟨o, ho⟩ := convertGroup_isSome lower g (h g (by simp))
    obtain ⟨outs, houts, hrel⟩ := convertGroups_spec lower rest (acc ++ [o])
      (fun g' hg' => h g' (List.mem_cons_of_mem _ hg'))
    refine ⟨o :: outs, ?_, List.Forall₂.cons ho hrel⟩
    simp only [convertGroups, ho, houts]
    simp

theorem squeeze_mem_of_not_hyphen :
    ∀ (s : Str) (c : Char), c ∈ s → isHyphen c = false → c ∈ squeeze s
  | [], c, h, _ => by cases h
  | d :: t, c, h, hc => by
    by_cases hd : (isHyphen d && (t.head?.map isHyphen).getD false) = true
    · simp only [squeeze, hd, if_true]
      rcases List.mem_cons.1 h with h | h
      · subst h
        simp [hc] at hd
      · exact squeeze_mem_of_not_hyphen t c h hc
    · simp only [squeeze, hd, Bool.false_eq_true, if_false]
      rcases List.mem_cons.1 h with h | h
      · simp [h]
      · exact List.mem_cons_of_mem _ (squeeze_mem_of_not_hyphen t c h hc)

theorem take_not_hyphen (y : Str) (hy : NoDoubleHyphen y) (c : Char) (hc : c ∈ y)
    (hne : isHyphen c = false) : ∃ x ∈ y.take 40, isHyphen x = false := by
  cases y with
  | nil => cases hc
  | cons a t =>
    by_cases ha : isHyphen a = true
    · have hct : c ∈ t := by
        rcases List.mem_cons.1 hc with h | h
        · subst h
          rw [ha] at hne
          cases hne
        · exact h
      cases t with
      | nil => cases hct
      | cons b t' =>
        refine ⟨b, by simp [List.take], ?_⟩
        unfold NoDoubleHyphen at hy
        rw [List.chain'_cons] at hy
        cases hb : isHyphen b with
        | false => rfl
        | true =>
          exfalso
          apply hy.1
          simp only [isHyphen, beq_iff_eq] at ha hb
          exact ⟨ha, hb⟩
    · exact ⟨a, by simp [List.take], by simpa using ha⟩

/-- A uid is empty exactly when the lowercased name has no character of
`[a-z0-9_]`. -/
theorem generateUid_ne_nil_iff (lower : Str → Str) (name : Str) :
    generateUid lower name ≠ [] ↔ ∃ c ∈ lower name, isUidChar c = true ∧ c ≠ '-' := by
  rw [generateUid_eq, Ne, List.rdropWhile_eq_nil_iff]
  constructor
  · intro h
    have h' : ∃ x ∈ (squeeze ((lower name).map substChar)).take 40, isHyphen x = false := by
      by_contra hcon
      apply h
      intro x hx
      cases hxh : isHyphen x with
      | true => rfl
      | false => exact absurd ⟨x, hx, hxh⟩ hcon
    obtain ⟨x, hx, hxh⟩ := h'
    have hx2 := squeeze_mem _ _ (List.mem_of_mem_take hx)
    obtain ⟨d, hd, hdx⟩ := List.mem_map.1 hx2
    refine ⟨d, hd, ?_⟩
    by_cases hu : isUidChar d = true
    · have : substChar d = d := by simp [substChar, isNotUidChar, hu]
      rw [this] at hdx
      subst hdx
      refine ⟨hu, ?_⟩
      rintro rfl
      exact absurd hxh (by decide)
    · have : substChar d = '-' := by simp [substChar, isNotUidChar, hu]
      rw [this] at hdx
      subst hdx
      exact absurd hxh (by decide)
  · rintro ⟨c, hc, hu, hne⟩ hall
    have hsub : substChar c = c := by simp [substChar, isNotUidChar, hu]
    have hch : isHyphen c = false := by simpa [isHyphen] using hne
    have h1 : c ∈ (lower name).map substChar := List.mem_map.2 ⟨c, hc, hsub⟩
    have h2 := squeeze_mem_of_not_hyphen _ c h1 hch
    obtain ⟨x, hx, hxh⟩ := take_not_hyphen _ (squeeze_noDouble _) c h2 hch
    rw [hall x hx] at hxh
    cases hxh

/-- A name in uid form is its own uid. -/
theorem generateUid_of_normal (lower : Str → Str)
    (hlower : ∀ s : Str, (∀ c ∈ s, isUidChar c = true) → lower s = s) (u : Str)
    (hu : IsNormalUid u) : generateUid lower u = u := by
  obtain ⟨hlen, hchars, hnd, hlast⟩ := hu
  rw [generateUid_eq, hlower _ hchars, map_substChar_of_uid _ hchars, squeeze_of_noDouble _ hnd,
    List.take_of_length_le hlen]
  apply rdropWhile_of_last
  intro c hc
  cases hh : isHyphen c with
  | false => rfl
  | true =>
    have : c = '-' := by simpa [isHyphen] using hh
    subst this
    exact absurd hc hlast

theorem forall₂_of_map_eq {α β : Type} (f : α → Option β) :
    ∀ (L : List α) (out : List β), out.map some = L.map f →
      List.Forall₂ (fun x o => f x = some o) L out
  | [], [], _ => List.Forall₂.nil
  | [], _ :: _, h => by simp at h
  | _ :: _, [], h => by simp at h
  | x :: L, o :: out, h => by
    simp only [List.map_cons, List.cons.injEq] at h
    exact List.Forall₂.cons h.1.symm (forall₂_of_map_eq f L out h.2)

theorem convertRule_defaults (lower : Str → Str) (r : SourceRule) (o : TargetRule)
    (h : convertRule lower r = some o) :
    (r.«for» = none → o.«for» = "0s".toList) ∧ (r.labels = none → o.labels = []) ∧
      (r.annotations = none → o.annotations = []) := by
  unfold convertRule at h
  cases h1 : r.alert with
  | none => simp [h1] at h
  | some a =>
    cases h2 : r.expr with
    | none => simp [h1, h2] at h
    | some e =>
      simp only [h1, h2, Option.some.injEq] at h
      subst h
      refine ⟨fun hf => ?_, fun hl => ?_, fun hn => ?_⟩
      · simp [hf, orElse]
      · simp [hl]
      · simp [hn]

theorem convertGroup_rules_rel (lower : Str → Str) (group : SourceGroup) (out : TargetGroup)
    (h : convertGroup lower group = some out) :
    (∀ r ∈ group.rules.getD [], isAlertingRule r = true → r.expr.isSome = true) ∧
      List.Forall₂ (fun r o => convertRule lower r = some o)
        ((group.rules.getD []).filter isAlertingRule) out.rules := by
  have hrs := (convertGroup_fields lower group out h).2.2.2.2
  have hexpr := convertRules_some_expr lower _ _ _ hrs
  obtain ⟨rs, hrs', hmap⟩ := convertRules_spec lower (group.rules.getD []) []
    (fun r hr ht => hexpr r hr (by rw [← truthy_eq_isAlertingRule]; exact ht))
  rw [hrs] at hrs'
  cases hrs'
  exact ⟨hexpr, forall₂_of_map_eq _ _ _ (by simpa using hmap)⟩

theorem determineFolder_mem (lower : Str → Str) (rule : SourceRule) :
    determineFolder lower rule = "infrastructure".toList ∨
      determineFolder lower rule = "databases".toList ∨
      determineFolder lower rule = "applications".toList := by
  unfold determineFolder
  simp only []
  split
  · rename_i entry hfind
    have hmem := List.mem_of_find?_eq_some hfind
    simp only [FOLDER_MAPPING, List.mem_cons, List.mem_singleton, List.not_mem_nil,
      or_false] at hmem
    rcases hmem with h | h | h | h | h | h | h | h | h | h | h <;> subst h <;> simp
  · split
    · exact Or.inl rfl
    · split
      · exact Or.inr (Or.inl rfl)
      · split <;> exact Or.inr (Or.inr rfl)

/-! ## Expressions whose comparison is not recognised -/

theorem split_left_of_not_mem {L R A B : Str} {x : Char} (h : L ++ R = A ++ x :: B)
    (hx : x ∉ R) : ∃ a, L = A ++ x :: a ∧ B = a ++ R := by
  rcases List.append_eq_append_iff.1 h with ⟨a, _, h2⟩ | ⟨c, h1, h2⟩
  · exact absurd (by rw [h2]; simp) hx
  · cases c with
    | nil =>
      simp only [List.nil_append] at h2
      exact absurd (by rw [← h2]; simp) hx
    | cons y c =>
      simp only [List.cons_append, List.cons.injEq] at h2
      exact ⟨c, by rw [h1, h2.1], h2.2⟩

/-- No comparison clause ends a string of the form `A ++ x :: n`, `n` being
digits and `x` none of an operator character, white space, a digit, or a dot
that follows a digit. -/
theorem not_trailing_of_tail (A : Str) (x : Char) (n : Str) (hop : isOpChar x = false)
    (hws : isWhiteSpace x = false) (hd : isDigit x = false)
    (hdot : x = '.' → ∀ y, A.getLast? = some y → isDigit y = false)
    (hn : ∀ c ∈ n, isDigit c = true) : ¬HasTrailingComparison (A ++ x :: n) := by
  rintro ⟨pre, ops, ws1, d1, dot, d2, ws2, hs, hops, hops', hws1, hd1, hd1', hdot', hd2, hws2⟩
  have hopsB : ∀ c ∈ ops, isOpChar c = true := by
    intro c hc
    simpa [isOpChar, or_assoc] using hops' c hc
  have nmem : ∀ {l : Str} {P : Char → Bool}, (∀ c ∈ l, P c = true) → P x = false → x ∉ l := by
    intro l P hl hP hx
    rw [hl x hx] at hP
    cases hP
  obtain ⟨a1, h1, hn1⟩ := split_left_of_not_mem hs.symm (nmem hws2 hws)
  obtain ⟨a2, h2, hn2⟩ := split_left_of_not_mem h1 (nmem hd2 hd)
  have ha2 : ∀ c ∈ a2, isDigit c = true := by
    intro c hc
    exact hn c (by rw [hn1, hn2]; simp [hc])
  have hH : pre ++ ops ++ ws1 ++ d1 = A ++ x :: a2 := by
    rcases hdot' with h | h
    · rw [h, List.append_nil] at h2
      exact h2
    · exfalso
      rw [h] at h2
      by_cases hx : x = '.'
      · cases hl : a2.getLast? with
        | none =>
          have ha : a2 = [] := List.getLast?_eq_none_iff.1 hl
          rw [ha, hx] at h2
          have hA : pre ++ ops ++ ws1 ++ d1 = A := List.append_cancel_right h2
          have hlast : A.getLast? = some (d1.getLast hd1) := by
            rw [← hA, List.getLast?_append_of_ne_nil _ hd1]
            exact List.getLast?_eq_getLast _ hd1
          have := hdot hx _ hlast
          rw [hd1' _ (List.getLast_mem hd1)] at this
          cases this
        | some y =>
          have hy : y = '.' := by
            have h3 := congrArg List.getLast? h2
            rw [List.getLast?_concat] at h3
            have hne : x :: a2 ≠ [] := by simp
            rw [List.getLast?_append_of_ne_nil _ hne] at h3
            have hne2 : a2 ≠ [] := by
              intro h0
              rw [h0] at hl
              cases hl
            rw [show x :: a2 = [x] ++ a2 from rfl, List.getLast?_append_of_ne_nil _ hne2] at h3
            rw [hl] at h3
            exact (Option.some.inj h3).symm
          have := ha2 y (List.mem_of_getLast?_eq_some hl)
          rw [hy] at this
          exact absurd this (by decide)
      · obtain ⟨a3, _, hn3⟩ := split_left_of_not_mem h2 (by simpa using hx)
        have := ha2 '.' (by rw [hn3]; simp)
        exact absurd this (by decide)
  obtain ⟨a3, h3, hn3⟩ := split_left_of_not_mem hH (nmem hd1' hd)
  obtain ⟨a4, h4, hn4⟩ := split_left_of_not_mem h3 (nmem hws1 hws)
  obtain ⟨a5, _, hn5⟩ := split_left_of_not_mem h4 (nmem hopsB hop)
  cases ops with
  | nil => exact hops rfl
  | cons o t =>
    have h1 : isDigit o = true := ha2 o (by rw [hn3, hn4, hn5]; simp)
    have h2 : isOpChar o = true := hopsB o (by simp)
    rw [digit_not_op h1] at h2
    cases h2

theorem unrecognised_of_tail (b op mid : Str) (x : Char) (n : Str) (hb : '\n' ∉ b)
    (hop : op ∈ comparisonOperators) (hmid : ∀ c ∈ mid, c = ' ' ∨ isDigit c = true)
    (hmidne : mid ≠ []) (hxn : x ≠ '\n') (hxop : isOpChar x = false)
    (hxws : isWhiteSpace x = false) (hxd : isDigit x = false)
    (hdot : x = '.' → ∀ y, mid.getLast? = some y → isDigit y = false)
    (hn : ∀ c ∈ n, isDigit c = true) :
    Unrecognised (b ++ " ".toList ++ op ++ mid ++ x :: n) := by
  obtain ⟨hop1, hop2⟩ := operator_facts hop
  have he : b ++ " ".toList ++ op ++ mid ++ x :: n = (b ++ [' ']) ++ (op ++ (mid ++ x :: n)) := by
    simp [List.append_assoc]
  have hnl : '\n' ∉ (b ++ [' ']) ++ (op ++ (mid ++ x :: n)) := by
    intro h
    simp only [List.mem_append, List.mem_cons, List.mem_singleton, List.not_mem_nil,
      or_false] at h
    rcases h with (h | h) | h | h | h | h
    · exact hb h
    · exact absurd h (by decide)
    · exact absurd (hop2 _ h) (by decide)
    · rcases hmid _ h with h' | h'
      · exact absurd h' (by decide)
      · exact absurd h' (by decide)
    · exact hxn h.symm
    · exact absurd (hn _ h) (by decide)
  have hR : op ++ (mid ++ x :: n) ≠ [] := by simp [hop1]
  have htrim : trim ((b ++ [' ']) ++ (op ++ (mid ++ x :: n)))
      = (b ++ [' ']).dropWhile isWhiteSpace ++ (op ++ (mid ++ x :: n)) := by
    apply trim_append _ _ hR
    · intro c hc
      cases op with
      | nil => exact absurd rfl hop1
      | cons o tl =>
        have : c = o := by simpa using hc.symm
        subst this
        exact op_not_ws (hop2 c (by simp))
    · intro c hc
      have h2 : mid ++ x :: n ≠ [] := by simp
      have h3 : x :: n ≠ [] := by simp
      rw [List.getLast?_append_of_ne_nil _ h2, List.getLast?_append_of_ne_nil _ h3] at hc
      rcases List.mem_cons.1 (List.mem_of_getLast?_eq_some hc) with h | h
      · rw [h]; exact hxws
      · exact digit_not_ws (hn c h)
  have hnot : ¬HasTrailingComparison
      ((b ++ [' ']).dropWhile isWhiteSpace ++ (op ++ (mid ++ x :: n))) := by
    have := not_trailing_of_tail ((b ++ [' ']).dropWhile isWhiteSpace ++ op ++ mid) x n hxop hxws
      hxd (fun hx y hy => hdot hx y (by
        rw [List.getLast?_append_of_ne_nil _ hmidne] at hy
        exact hy)) hn
    simpa [List.append_assoc] using this
  have hnorm : normalizeExpr (b ++ " ".toList ++ op ++ mid ++ x :: n)
      = trim (b ++ " ".toList ++ op ++ mid ++ x :: n) := by
    rw [he]
    exact normalizeExpr_of_no_newline _ hnl
  have hsplit : splitComparison (trim (b ++ " ".toList ++ op ++ mid ++ x :: n))
      = (trim (b ++ " ".toList ++ op ++ mid ++ x :: n), "$B > 0".toList) := by
    apply splitComparison_of_not_trailing
    rw [he, htrim]
    exact hnot
  refine ⟨_, _, _, rfl, rfl, ?_, rfl, ?_⟩
  · simp only [hnorm, hsplit]
  · simp only [hnorm, hsplit]

/-! ## Lemmas on `validateFile` applied to a converted document -/

theorem truthy_some (x : Str) : truthy (some x) = true ↔ x ≠ [] := by
  cases x <;> simp [truthy]

theorem convertRule_title (lower : Str → Str) (r : SourceRule) (o : TargetRule)
    (h : convertRule lower r = some o) (ha : isAlertingRule r = true) :
    o.title ≠ [] ∧ o.condition = "C".toList := by
  unfold convertRule at h
  cases h1 : r.alert with
  | none => simp [h1] at h
  | some a =>
    cases h2 : r.expr with
    | none => simp [h1, h2] at h
    | some e =>
      simp only [h1, h2, Option.some.injEq] at h
      subst h
      refine ⟨?_, rfl⟩
      simp only [isAlertingRule, h1, decide_eq_true_eq] at ha
      intro h0
      have h0' : a = [] := h0
      exact ha.2 (by rw [h0'])

theorem convertGroup_checked (lower : Str → Str) (group : SourceGroup) (out : TargetGroup)
    (h : convertGroup lower group = some out) :
    out.name = group.name ∧ out.folder ≠ [] ∧
      ∀ r ∈ out.rules, r.title ≠ [] ∧ r.condition ≠ [] := by
  obtain ⟨_, hname, _, hfolder, _⟩ := convertGroup_fields lower group out h
  refine ⟨hname, ?_, ?_⟩
  · rw [hfolder]
    cases group.rules.getD [] with
    | nil =>
      show "applications".toList ≠ []
      decide
    | cons first rest =>
      show determineFolder lower first ≠ []
      rcases determineFolder_mem lower first with h | h | h <;>
        · rw [h]
          decide
  · have hrel := (convertGroup_rules_rel lower group out h).2
    have hfilter : ∀ r ∈ (group.rules.getD []).filter isAlertingRule, isAlertingRule r = true :=
      fun r hr => (List.mem_filter.1 hr).2
    generalize (group.rules.getD []).filter isAlertingRule = L at hrel hfilter
    generalize out.rules = rs at hrel
    induction hrel with
    | nil => intro r hr; cases hr
    | cons hab _ ih =>
      intro r hr
      rcases List.mem_cons.1 hr with hr | hr
      · subst hr
        have := convertRule_title lower _ _ hab (hfilter _ (by simp))
        refine ⟨this.1, ?_⟩
        rw [this.2]
        decide
      · exact ih (fun x hx => hfilter x (List.mem_cons_of_mem _ hx)) r hr

theorem checkRules_converted :
    ∀ rs : List TargetRule, (∀ r ∈ rs, r.title ≠ [] ∧ r.condition ≠ []) →
      (checkRules (rs.map loadedRule) = none ↔ ∀ r ∈ rs, r.uid ≠ []) ∧
        (∀ e, checkRules (rs.map loadedRule) = some e → e = Rejection.ruleUid)
  | [], _ => by simp [checkRules]
  | r :: rs, h => by
    obtain ⟨ht, hc⟩ := h r (by simp)
    obtain ⟨ih1, ih2⟩ := checkRules_converted rs (fun x hx => h x (List.mem_cons_of_mem _ hx))
    have htt : truthy (some r.title) = true := (truthy_some _).2 ht
    have hct : truthy (some r.condition) = true := (truthy_some _).2 hc
    by_cases hu : r.uid = []
    · have hut : truthy (some r.uid) = false := by rw [hu]; rfl
      simp only [List.map_cons, checkRules, loadedRule, hut]
      simp [hu]
    · have hut : truthy (some r.uid) = true := (truthy_some _).2 hu
      simp only [List.map_cons, checkRules, loadedRule, hut, htt, hct]
      simp only [Bool.not_true, Bool.false_eq_true, if_false, Option.isNone_some]
      refine ⟨?_, ih2⟩
      rw [ih1]
      simp [hu]

theorem checkGroups_converted :
    ∀ gs : List TargetGroup,
      (∀ g ∈ gs, g.folder ≠ [] ∧ ∀ r ∈ g.rules, r.title ≠ [] ∧ r.condition ≠ []) →
      (checkGroups (gs.map loadedGroup) = none ↔
        (∀ g ∈ gs, g.name ≠ []) ∧ ∀ g ∈ gs, ∀ r ∈ g.rules, r.uid ≠ []) ∧
        (∀ e, checkGroups (gs.map loadedGroup) = some e →
          e = Rejection.groupName ∨ e = Rejection.ruleUid)
  | [], _ => by simp [checkGroups]
  | g :: gs, h => by
    obtain ⟨hf, hr⟩ := h g (by simp)
    obtain ⟨ih1, ih2⟩ := checkGroups_converted gs (fun x hx => h x (List.mem_cons_of_mem _ hx))
    obtain ⟨hr1, hr2⟩ := checkRules_converted g.rules hr
    have hft : truthy (some g.folder) = true := (truthy_some _).2 hf
    by_cases hn : g.name = []
    · have hnt : truthy (some g.name) = false := by rw [hn]; rfl
      simp only [List.map_cons, checkGroups, loadedGroup, hnt]
      simp [hn]
    · have hnt : truthy (some g.name) = true := (truthy_some _).2 hn
      simp only [List.map_cons, checkGroups, loadedGroup, hnt, hft]
      simp only [Bool.not_true, Bool.false_eq_true, if_false]
      cases hcr : checkRules (g.rules.map loadedRule) with
      | some e =>
        have he := hr2 e hcr
        have hnot : ¬∀ r ∈ g.rules, r.uid ≠ [] := by
          intro hall
          rw [hr1.2 hall] at hcr
          cases hcr
        refine ⟨?_, ?_⟩
        · constructor
          · intro h0
            cases h0
          · rintro ⟨_, h2⟩
            exact absurd (h2 g (by simp)) hnot
        · intro e' he'
          cases he'
          exact Or.inr he
      | none =>
        have hall := hr1.1 hcr
        refine ⟨?_, ih2⟩
        simp only []
        rw [ih1]
        constructor
        · rintro ⟨h1, h2⟩
          refine ⟨fun x hx => ?_, fun x hx => ?_⟩
          · rcases List.mem_cons.1 hx with hx | hx
            · rw [hx]; exact hn
            · exact h1 x hx
          · rcases List.mem_cons.1 hx with hx | hx
            · rw [hx]; exact hall
            · exact h2 x hx
        · rintro ⟨h1, h2⟩
          exact ⟨fun x hx => h1 x (List.mem_cons_of_mem _ hx),
            fun x hx => h2 x (List.mem_cons_of_mem _ hx)⟩

theorem forall₂_names {gs : List SourceGroup} {outs : List TargetGroup}
    (h : List.Forall₂ (fun g out => out.name = g.name) gs outs) :
    (∀ g ∈ gs, g.name ≠ []) ↔ ∀ out ∈ outs, out.name ≠ [] := by
  induction h with
  | nil => simp
  | cons hab _ ih =>
    simp only [List.mem_cons, forall_eq_or_imp, ih, hab]

/-! ## The claims -/

/-- C1: for a newline-free `b`, an operator `op` among `<`, `>`, `<=`, `>=`,
`==`, `!=` and a numeric literal `n`, the pipeline of `b + " " + op + " " + n`
has three stages, stage A querying `b` trimmed and stage C evaluating
`"$B " + op + " " + n`. -/
theorem convertPromQL_trailing_comparison (b op n : Str) (hb : '\n' ∉ b)
    (hop : op ∈ comparisonOperators) (hn : IsNumericLiteral n) :
    ∃ stA stB stC,
      convertPromQLToGrafanaQuery (b ++ " ".toList ++ op ++ " ".toList ++ n) = [stA, stB, stC] ∧
      stA.refId = "A".toList ∧ stA.model.expr = some (trim b) ∧
      stC.refId = "C".toList ∧
      stC.model.expression = some ("$B ".toList ++ op ++ " ".toList ++ n) := by
  obtain ⟨hop1, hop2⟩ := operator_facts hop
  obtain ⟨d1, dot, d2, hn', hd1, hd1', hdot, hd2⟩ := numeric_facts hn
  have hnum : ∀ c ∈ d1 ++ (dot ++ d2), isWhiteSpace c = false ∧ c ≠ '\n' :=
    fun c hc => numeric_char_not_ws (numeric_char hd1' hdot hd2 hc)
  have hN : d1 ++ (dot ++ d2) ≠ [] := by simp [hd1]
  have he : b ++ " ".toList ++ op ++ " ".toList ++ n
      = (b ++ [' ']) ++ (op ++ ([' '] ++ (d1 ++ (dot ++ d2)))) := by
    rw [hn']
    simp [List.append_assoc]
  have hnl : '\n' ∉ (b ++ [' ']) ++ (op ++ ([' '] ++ (d1 ++ (dot ++ d2)))) := by
    intro h
    rw [List.mem_append, List.mem_append, List.mem_append, List.mem_append] at h
    rcases h with (h | h) | h | h | h
    · exact hb h
    · simp at h
    · exact absurd (hop2 _ h) (by decide)
    · simp at h
    · exact (hnum _ h).2 rfl
  have hR : op ++ ([' '] ++ (d1 ++ (dot ++ d2))) ≠ [] := by simp [hop1]
  have htrim : trim ((b ++ [' ']) ++ (op ++ ([' '] ++ (d1 ++ (dot ++ d2)))))
      = (b ++ [' ']).dropWhile isWhiteSpace ++ (op ++ ([' '] ++ (d1 ++ (dot ++ d2)))) := by
    apply trim_append _ _ hR
    · intro c hc
      cases op with
      | nil => exact absurd rfl hop1
      | cons o tl =>
        have : c = o := by simpa using hc.symm
        subst this
        exact op_not_ws (hop2 c (by simp))
    · intro c hc
      have h2 : [' '] ++ (d1 ++ (dot ++ d2)) ≠ [] := by simp
      rw [List.getLast?_append_of_ne_nil _ h2, List.getLast?_append_of_ne_nil _ hN] at hc
      exact (hnum c (List.mem_of_getLast?_eq_some hc)).1
  have hX : ∀ c, ((b ++ [' ']).dropWhile isWhiteSpace).getLast? = some c → isOpChar c = false := by
    intro c hc
    obtain ⟨t, ht⟩ := List.dropWhile_suffix isWhiteSpace (l := b ++ [' '])
    have hne : (b ++ [' ']).dropWhile isWhiteSpace ≠ [] := by
      intro h
      rw [h] at hc
      cases hc
    have h1 : (t ++ (b ++ [' ']).dropWhile isWhiteSpace).getLast? = some c := by
      rw [List.getLast?_append_of_ne_nil _ hne]; exact hc
    rw [ht, List.getLast?_concat] at h1
    have : c = ' ' := by simpa using h1.symm
    subst this
    decide
  have hsplit := splitComparison_append ((b ++ [' ']).dropWhile isWhiteSpace) op [' '] d1 dot d2
    hX hop1 hop2 (by decide) hd1 hd1' hdot hd2
  have hbase : trim ((b ++ [' ']).dropWhile isWhiteSpace) = trim b := by
    rw [trim_dropWhile, trim_append_ws b [' '] (by decide)]
  have hnorm : normalizeExpr (b ++ " ".toList ++ op ++ " ".toList ++ n)
      = (b ++ [' ']).dropWhile isWhiteSpace ++ (op ++ ([' '] ++ (d1 ++ (dot ++ d2)))) := by
    rw [he, normalizeExpr_of_no_newline _ hnl, htrim]
  refine ⟨_, _, _, rfl, rfl, ?_, rfl, ?_⟩
  · simp only [hnorm, hsplit, hbase]
  · simp only [hnorm, hsplit]
    rw [hn']
    simp [List.append_assoc]

/-- Witness of C1: `up{job="x"} < 1` gives the base query `up{job="x"}` and the
math expression `$B < 1`. -/
theorem convertPromQL_trailing_comparison_witness :
    ∃ stA stB stC,
      convertPromQLToGrafanaQuery
          ("up\x7bjob=\"x\"\x7d".toList ++ " ".toList ++ "<".toList ++ " ".toList ++ "1".toList)
        = [stA, stB, stC] ∧
      stA.refId = "A".toList ∧ stA.model.expr = some (trim "up\x7bjob=\"x\"\x7d".toList) ∧
      stC.refId = "C".toList ∧
      stC.model.expression
        = some ("$B ".toList ++ "<".toList ++ " ".toList ++ "1".toList) :=
  convertPromQL_trailing_comparison "up\x7bjob=\"x\"\x7d".toList "<".toList "1".toList (by decide)
    (by decide) ⟨"1".toList, [], rfl, by decide, by decide, Or.inl rfl⟩

/-- C2: when the normalized expression does not end with a comparison clause,
stage A queries the whole normalized expression and stage C evaluates
`$B > 0`. -/
theorem convertPromQL_default_threshold (e : Str)
    (h : ¬HasTrailingComparison (normalizeExpr e)) :
    ∃ stA stB stC,
      convertPromQLToGrafanaQuery e = [stA, stB, stC] ∧
      stA.refId = "A".toList ∧ stA.model.expr = some (normalizeExpr e) ∧
      stC.refId = "C".toList ∧ stC.model.expression = some "$B > 0".toList := by
  have hs := splitComparison_of_not_trailing _ h
  refine ⟨_, _, _, rfl, rfl, ?_, rfl, ?_⟩
  · simp only [hs]
  · simp only [hs]

/-- Witness of C2: `absent(up{job="x"})` is queried unchanged, with the math
expression `$B > 0`. -/
theorem convertPromQL_default_threshold_witness :
    normalizeExpr "absent(up\x7bjob=\"x\"\x7d)".toList = "absent(up\x7bjob=\"x\"\x7d)".toList ∧
    ¬HasTrailingComparison (normalizeExpr "absent(up\x7bjob=\"x\"\x7d)".toList) ∧
    ∃ stA stB stC,
      convertPromQLToGrafanaQuery "absent(up\x7bjob=\"x\"\x7d)".toList = [stA, stB, stC] ∧
      stA.refId = "A".toList ∧
      stA.model.expr = some (normalizeExpr "absent(up\x7bjob=\"x\"\x7d)".toList) ∧
      stC.refId = "C".toList ∧ stC.model.expression = some "$B > 0".toList :=
  have hlast : ¬HasTrailingComparison (normalizeExpr "absent(up\x7bjob=\"x\"\x7d)".toList) :=
    not_trailing_of_last (c := ')') (by decide) (by decide) (by decide) (by decide)
  ⟨by decide, hlast, convertPromQL_default_threshold _ hlast⟩

/-- C4: for every expression the pipeline has exactly the three stages A, B, C
below, in this order; only `model.expr` of A and `model.expression` of C depend
on the expression. -/
theorem convertPromQL_three_stages (e : Str) :
    ∃ baseExpr mathExpr,
      convertPromQLToGrafanaQuery e =
        [ { refId := "A".toList
            relativeTimeRange := { «from» := 600, «to» := 0 }
            datasourceUid := "prometheus".toList
            model :=
              { expr := some baseExpr, type := none, expression := none, reducer := none
                refId := "A".toList
                datasource := { type := "prometheus".toList, uid := "prometheus".toList }
                intervalMs := some 1000, maxDataPoints := some 43200 } },
          { refId := "B".toList
            relativeTimeRange := { «from» := 0, «to» := 0 }
            datasourceUid := "__expr__".toList
            model :=
              { expr := none, type := some "reduce".toList, expression := some "A".toList
                reducer := some "last".toList
                refId := "B".toList
                datasource := { type := "__expr__".toList, uid := "__expr__".toList }
                intervalMs := none, maxDataPoints := none } },
          { refId := "C".toList
            relativeTimeRange := { «from» := 0, «to» := 0 }
            datasourceUid := "__expr__".toList
            model :=
              { expr := none, type := some "math".toList, expression := some mathExpr
                reducer := none
                refId := "C".toList
                datasource := { type := "__expr__".toList, uid := "__expr__".toList }
                intervalMs := none, maxDataPoints := none } } ] :=
  ⟨(splitComparison (normalizeExpr e)).1, (splitComparison (normalizeExpr e)).2, rfl⟩

/-- C5: a generated uid has at most 40 characters, each of them a lowercase ASCII
letter, a digit, `_` or `-`, and it does not end with `-`. -/
theorem generateUid_shape (lower : Str → Str) (name : Str) :
    (generateUid lower name).length ≤ 40 ∧
      (∀ c ∈ generateUid lower name,
        ('a'.toNat ≤ c.toNat ∧ c.toNat ≤ 'z'.toNat) ∨ ('0'.toNat ≤ c.toNat ∧ c.toNat ≤ '9'.toNat) ∨
          c = '_' ∨ c = '-') ∧
      (generateUid lower name).getLast? ≠ some '-' := by
  obtain ⟨hlen, hchars, _, hstrip⟩ := generateUid_invariants lower name
  refine ⟨hlen, ?_, ?_⟩
  · intro c hc
    have := hchars c hc
    simpa [isUidChar, or_assoc] using this
  · intro hlast
    have hne : generateUid lower name ≠ [] := by
      intro h
      rw [h] at hlast
      cases hlast
    have h1 := (List.rdropWhile_eq_self_iff.1 hstrip) hne
    rw [List.getLast?_eq_getLast _ hne] at hlast
    have h2 : (generateUid lower name).getLast hne = '-' := by simpa using hlast
    rw [h2] at h1
    exact h1 (by decide)

/-- C6: `generateUid` is idempotent, `toLowerCase` leaving unchanged the strings
over `[a-z0-9_-]`. -/
theorem generateUid_idempotent (lower : Str → Str)
    (hlower : ∀ s : Str, (∀ c ∈ s, isUidChar c = true) → lower s = s) (name : Str) :
    generateUid lower (generateUid lower name) = generateUid lower name := by
  obtain ⟨hlen, hchars, hnd, hstrip⟩ := generateUid_invariants lower name
  rw [generateUid_eq lower (generateUid lower name), hlower _ hchars,
    map_substChar_of_uid _ hchars, squeeze_of_noDouble _ hnd, List.take_of_length_le hlen, hstrip]

/-- Witness of C6, with the ASCII lowercasing. -/
theorem generateUid_idempotent_witness :
    (∀ s : Str, (∀ c ∈ s, isUidChar c = true) → asciiLower s = s) ∧
      generateUid asciiLower (generateUid asciiLower "High CPU -- Usage!".toList)
        = generateUid asciiLower "High CPU -- Usage!".toList :=
  ⟨asciiLower_of_uid, generateUid_idempotent asciiLower asciiLower_of_uid _⟩

/-- C3, as stated, fails: the two-line expression `"\n|"` is reduced by `trim` to
the single line `|`, which is then kept as the base query, while its joined
form is empty. -/
theorem convertPromQL_joined_counterexample :
    '\n' ∈ "\n|".toList ∧ joinedForm "\n|".toList = [] ∧
      normalizeExpr "\n|".toList = "|".toList ∧
      convertPromQLToGrafanaQuery "\n|".toList
        ≠ convertPromQLToGrafanaQuery (joinedForm "\n|".toList) := by
  decide

/-- C3, amended: the pipeline of an expression is the pipeline of its joined
form, provided that the expression, once the leading marker line is stripped
and the result trimmed, still has a line feed or does not start with `|`. -/
theorem convertPromQL_joined (e : Str)
    (h : '\n' ∈ trim (replaceAtStart markerPattern [] e) ∨
      (trim (replaceAtStart markerPattern [] e)).head? ≠ some '|') :
    convertPromQLToGrafanaQuery e = convertPromQLToGrafanaQuery (joinedForm e) := by
  unfold convertPromQLToGrafanaQuery
  rw [normalizeExpr_joinedForm, normalizeExpr_eq_joinedForm e h]

/-- Witness of C3: the block scalar `"|\n  up\x7bjob=\"x\"\x7d\n  == 0\n"` gives the base
query `up{job="x"}` and the math expression `$B == 0`. -/
theorem convertPromQL_joined_witness :
    joinedForm "|\n  up\x7bjob=\"x\"\x7d\n  == 0\n".toList = "up\x7bjob=\"x\"\x7d == 0".toList ∧
      splitComparison "up\x7bjob=\"x\"\x7d == 0".toList
        = ("up\x7bjob=\"x\"\x7d".toList, "$B == 0".toList) ∧
      convertPromQLToGrafanaQuery "|\n  up\x7bjob=\"x\"\x7d\n  == 0\n".toList
        = convertPromQLToGrafanaQuery (joinedForm "|\n  up\x7bjob=\"x\"\x7d\n  == 0\n".toList) :=
  ⟨by decide, by decide, convertPromQL_joined _ (Or.inl (by decide))⟩

/-- C7: `determineFolder` returns the folder of the earliest entry of the table
whose key is a substring of the lowercased `component` label; when no key is a
substring, the folder of the lowercased `category` label if it is
`infrastructure`, `database` or `application`, and `applications` otherwise. The
table is in the declared order, so that `postgresql-node` is classified
`infrastructure`. -/
theorem determineFolder_spec (lower : Str → Str) (rule : SourceRule) :
    (FOLDER_MAPPING =
      [ ("aks".toList, "infrastructure".toList), ("node".toList, "infrastructure".toList),
        ("cluster".toList, "infrastructure".toList), ("postgresql".toList, "databases".toList),
        ("mysql".toList, "databases".toList), ("rabbitmq".toList, "applications".toList),
        ("n8n".toList, "applications".toList), ("argocd".toList, "applications".toList),
        ("cert-manager".toList, "applications".toList),
        ("external-dns".toList, "applications".toList),
        ("content-platform".toList, "applications".toList) ]) ∧
    (∀ pre key folder post, FOLDER_MAPPING = pre ++ (key, folder) :: post →
      key <:+: lower (((rule.labels.getD []).lookup "component".toList).getD []) →
      (∀ entry ∈ pre,
        ¬entry.1 <:+: lower (((rule.labels.getD []).lookup "component".toList).getD [])) →
      determineFolder lower rule = folder) ∧
    ((∀ entry ∈ FOLDER_MAPPING,
        ¬entry.1 <:+: lower (((rule.labels.getD []).lookup "component".toList).getD [])) →
      determineFolder lower rule =
        if lower (((rule.labels.getD []).lookup "category".toList).getD [])
            = "infrastructure".toList then "infrastructure".toList
        else if lower (((rule.labels.getD []).lookup "category".toList).getD [])
            = "database".toList then "databases".toList
        else if lower (((rule.labels.getD []).lookup "category".toList).getD [])
            = "application".toList then "applications".toList
        else "applications".toList) ∧
    (lower (((rule.labels.getD []).lookup "component".toList).getD [])
        = "postgresql-node".toList →
      determineFolder lower rule = "infrastructure".toList) := by
  have part1 : ∀ pre key folder post, FOLDER_MAPPING = pre ++ (key, folder) :: post →
      key <:+: lower (((rule.labels.getD []).lookup "component".toList).getD []) →
      (∀ entry ∈ pre,
        ¬entry.1 <:+: lower (((rule.labels.getD []).lookup "component".toList).getD [])) →
      determineFolder lower rule = folder := by
    intro pre key folder post htab hkey hpre
    unfold determineFolder
    simp only [orElse_nil]
    rw [htab, find?_first _ pre (key, folder) post]
    · intro y hy
      cases hi : includes (lower (((rule.labels.getD []).lookup "component".toList).getD [])) y.1
        with
      | false => rfl
      | true => exact absurd ((includes_iff _ _).1 hi) (hpre y hy)
    · exact (includes_iff _ _).2 hkey
  refine ⟨rfl, part1, ?_, ?_⟩
  · intro hnone
    unfold determineFolder
    simp only [orElse_nil]
    have : FOLDER_MAPPING.find? (fun entry =>
        includes (lower (((rule.labels.getD []).lookup "component".toList).getD [])) entry.1)
        = none := by
      rw [List.find?_eq_none]
      intro y hy hi
      exact hnone y hy ((includes_iff _ _).1 hi)
    rw [this]
  · intro hcomp
    apply part1 [("aks".toList, "infrastructure".toList)] "node".toList "infrastructure".toList
      _ rfl
    · rw [hcomp]
      exact ⟨"postgresql-".toList, [], rfl⟩
    · intro entry hentry
      rw [hcomp]
      have : entry = ("aks".toList, "infrastructure".toList) := by simpa using hentry
      subst this
      intro hin
      have := (includes_iff _ _).2 hin
      revert this
      decide

/-- Witness of C7: a component `PostgreSQL-Node` with category `database` is
classified `infrastructure`, the key `node` being declared before `postgresql`. -/
theorem determineFolder_spec_witness :
    determineFolder asciiLower
        { alert := some "X".toList, expr := some "up".toList, «for» := none
          labels := some [("component".toList, "PostgreSQL-Node".toList),
            ("category".toList, "database".toList)]
          annotations := none }
      = "infrastructure".toList :=
  (determineFolder_spec asciiLower _).2.2.2 (by decide)

/-- C8, as stated, fails: a rule whose `for` is the empty string is given the
duration `0s`, not its own `for` value. -/
theorem convertRule_for_counterexample :
    (convertRule asciiLower
        { alert := some "HighCPU".toList, expr := some "cpu > 90".toList,
          «for» := some "".toList, labels := none, annotations := none }).map (fun out => out.«for»)
      = some "0s".toList ∧
    (some "".toList : Option Str).getD "0s".toList ≠ "0s".toList := by
  decide

/-- C8, amended: a rule with an alert name and an expression is converted to the
record below, in which `for` is the `for` of the rule when it is present and not
empty, and `0s` otherwise; `condition` is the `refId` of the last stage. -/
theorem convertRule_spec (lower : Str → Str) (rule : SourceRule) (alert expr : Str)
    (ha : rule.alert = some alert) (he : rule.expr = some expr) :
    convertRule lower rule = some
      { uid := generateUid lower alert
        title := alert
        condition := "C".toList
        «for» :=
          match rule.«for» with
          | some f => if f = [] then "0s".toList else f
          | none => "0s".toList
        noDataState := "OK".toList
        execErrState := "Alerting".toList
        annotations := rule.annotations.getD []
        labels := rule.labels.getD []
        data := convertPromQLToGrafanaQuery expr } ∧
    (convertPromQLToGrafanaQuery expr).getLast?.map (fun st => st.refId) = some "C".toList := by
  refine ⟨?_, rfl⟩
  unfold convertRule
  rw [ha, he]
  simp only [orElse]
  cases hf : rule.«for» with
  | none => rfl
  | some f => cases f <;> rfl

/-- Witness of C8: the rule `HighCPU` with expression `cpu > 90` and `for: 5m`
gets the uid `highcpu`, the title `HighCPU`, the condition `C`, the duration
`5m` and the math expression `$B > 90`. -/
theorem convertRule_spec_witness :
    convertRule asciiLower
        { alert := some "HighCPU".toList, expr := some "cpu > 90".toList,
          «for» := some "5m".toList,
          labels := some [("component".toList, "node".toList)], annotations := none }
      = some
        { uid := "highcpu".toList
          title := "HighCPU".toList
          condition := "C".toList
          «for» := "5m".toList
          noDataState := "OK".toList
          execErrState := "Alerting".toList
          annotations := []
          labels := [("component".toList, "node".toList)]
          data := convertPromQLToGrafanaQuery "cpu > 90".toList } ∧
      (convertPromQLToGrafanaQuery "cpu > 90".toList).map (fun st => st.model.expression)
        = [none, some "A".toList, some "$B > 90".toList] := by
  refine ⟨?_, by decide⟩
  have h := (convertRule_spec asciiLower
    { alert := some "HighCPU".toList, expr := some "cpu > 90".toList,
      «for» := some "5m".toList,
      labels := some [("component".toList, "node".toList)], annotations := none }
    "HighCPU".toList "cpu > 90".toList rfl rfl).1
  rw [h]
  decide

/-- C9, as stated, fails: a rule whose `alert` field is the empty string has an
alert field, and the loop skips it. -/
theorem convertGroup_rules_counterexample :
    (convertGroup asciiLower
        { name := "g".toList, interval := none,
          rules := some [{ alert := some "".toList, expr := some "up".toList, «for» := none,
                           labels := none, annotations := none }] }).map
        (fun out => out.rules.length) = some 0 ∧
    ([({ alert := some "".toList, expr := some "up".toList, «for» := none,
         labels := none, annotations := none } : SourceRule)].filter
        (fun r => r.alert.isSome)).length = 1 := by
  decide

/-- C9, amended: when every alerting rule of a group has an expression, the
group is converted and its rules are `convertRule` of the rules whose `alert` is
present and not empty, in their order; the other rules contribute nothing. -/
theorem convertGroup_rules (lower : Str → Str) (group : SourceGroup)
    (hexpr : ∀ r ∈ group.rules.getD [], isAlertingRule r = true → r.expr.isSome = true) :
    ∃ out, convertGroup lower group = some out ∧
      out.rules.map some = ((group.rules.getD []).filter isAlertingRule).map (convertRule lower) ∧
      out.rules.length = ((group.rules.getD []).filter isAlertingRule).length := by
  obtain ⟨rs, hrs, hmap⟩ := convertRules_spec lower (group.rules.getD []) []
    (fun r hr ht => hexpr r hr (by rw [← truthy_eq_isAlertingRule]; exact ht))
  have hcg : convertGroup lower group = some
      { orgId := 1, name := group.name
        folder :=
          match group.rules.getD [] with
          | [] => "applications".toList
          | first :: _ => determineFolder lower first
        interval := orElse group.interval "30s".toList, rules := rs } := by
    simp only [convertGroup, hrs]
  refine ⟨_, hcg, ?_, ?_⟩
  · simpa using hmap
  · have := congrArg List.length hmap
    simpa using this

/-- Witness of C9: a recording rule between two alerting rules is dropped. -/
theorem convertGroup_rules_witness :
    ∃ out,
      convertGroup asciiLower
          { name := "g".toList, interval := none,
            rules := some
              [ { alert := some "A1".toList, expr := some "up < 1".toList, «for» := none,
                  labels := none, annotations := none },
                { alert := none, expr := some "sum(up)".toList, «for» := none,
                  labels := none, annotations := none },
                { alert := some "A2".toList, expr := some "up".toList, «for» := none,
                  labels := none, annotations := none } ] } = some out ∧
        out.rules.map (fun r => r.title) = ["A1".toList, "A2".toList] := by
  obtain ⟨out, hout, hmap, _⟩ := convertGroup_rules asciiLower
    { name := "g".toList, interval := none,
      rules := some
        [ { alert := some "A1".toList, expr := some "up < 1".toList, «for» := none,
            labels := none, annotations := none },
          { alert := none, expr := some "sum(up)".toList, «for» := none,
            labels := none, annotations := none },
          { alert := some "A2".toList, expr := some "up".toList, «for» := none,
            labels := none, annotations := none } ] } (by decide)
  refine ⟨out, hout, ?_⟩
  have h2 := congrArg (List.map (Option.map (fun r : TargetRule => r.title))) hmap
  simp only [List.map_map] at h2
  have h3 : out.rules.map (fun r => some r.title) = [some "A1".toList, some "A2".toList] := by
    rw [show (fun r : TargetRule => some r.title)
      = (Option.map (fun r : TargetRule => r.title)) ∘ some from rfl, h2]
    decide
  have h4 := congrArg (List.map (fun o : Option Str => o.getD [])) h3
  simpa [List.map_map, Function.comp_def] using h4

/-- C10: the folder of a converted group is `determineFolder` of the first rule
of the group, whatever the rules after it: every group with the same first rule
gets the same folder. -/
theorem convertGroup_folder (lower : Str → Str) (group : SourceGroup) (first : SourceRule)
    (rest : List SourceRule) (hrules : group.rules = some (first :: rest))
    (hexpr : ∀ r ∈ first :: rest, isAlertingRule r = true → r.expr.isSome = true) :
    (∃ out, convertGroup lower group = some out ∧ out.folder = determineFolder lower first) ∧
    (∀ (other : SourceGroup) (rest' : List SourceRule) (out' : TargetGroup),
      other.rules = some (first :: rest') → convertGroup lower other = some out' →
      out'.folder = determineFolder lower first) := by
  constructor
  · obtain ⟨rs, hrs, _⟩ := convertRules_spec lower (first :: rest) []
      (fun r hr ht => hexpr r hr (by rw [← truthy_eq_isAlertingRule]; exact ht))
    have hcg : convertGroup lower group = some
        { orgId := 1, name := group.name, folder := determineFolder lower first
          interval := orElse group.interval "30s".toList, rules := rs } := by
      simp only [convertGroup, hrules, Option.getD_some, hrs]
    exact ⟨_, hcg, rfl⟩
  · intro other rest' out' hother hout'
    simp only [convertGroup, hother, Option.getD_some] at hout'
    split at hout'
    · cases hout'
      rfl
    · cases hout'

/-- Witness of C10: a first rule with component `postgresql` puts the group in
`databases`, the second rule having component `node`. -/
theorem convertGroup_folder_witness :
    ∃ out,
      convertGroup asciiLower
          { name := "db".toList, interval := none,
            rules := some
              [ { alert := some "PgDown".toList, expr := some "pg_up == 0".toList, «for» := none,
                  labels := some [("component".toList, "postgresql".toList)],
                  annotations := none },
                { alert := some "NodeDown".toList, expr := some "up == 0".toList, «for» := none,
                  labels := some [("component".toList, "node".toList)],
                  annotations := none } ] } = some out ∧
        out.folder = "databases".toList := by
  obtain ⟨out, hout, hfolder⟩ := (convertGroup_folder asciiLower
    { name := "db".toList, interval := none,
      rules := some
        [ { alert := some "PgDown".toList, expr := some "pg_up == 0".toList, «for» := none,
            labels := some [("component".toList, "postgresql".toList)],
            annotations := none },
          { alert := some "NodeDown".toList, expr := some "up == 0".toList, «for» := none,
            labels := some [("component".toList, "node".toList)],
            annotations := none } ] } _ _ rfl (by decide)).1
  exact ⟨out, hout, by rw [hfolder]; decide⟩

/-- C11, as stated, fails: a recording rule with component `postgresql` placed
before the alerting rule with component `node` puts the group in `databases`,
while the first convertible rule is classified `infrastructure`. -/
theorem convertGroup_first_alerting_counterexample :
    (convertGroup asciiLower
        { name := "g".toList, interval := none,
          rules := some
            [ { alert := none, expr := some "sum(up)".toList, «for» := none,
                labels := some [("component".toList, "postgresql".toList)],
                annotations := none },
              { alert := some "NodeDown".toList, expr := some "up == 0".toList,
                «for» := none,
                labels := some [("component".toList, "node".toList)],
                annotations := none } ] }).map (fun out => out.folder)
      = some "databases".toList ∧
    determineFolder asciiLower
        { alert := some "NodeDown".toList, expr := some "up == 0".toList, «for» := none,
          labels := some [("component".toList, "node".toList)], annotations := none }
      = "infrastructure".toList := by
  decide

/-- C11, amended: in a group whose first alerting rule `r` comes after the
recording rules `pre`, the folder is classified from the first rule of the
group, alerting or not: from `r` when `pre` is empty, from the first recording
rule otherwise. -/
theorem convertGroup_first_alerting (lower : Str → Str) (group : SourceGroup)
    (pre : List SourceRule) (r : SourceRule) (rest : List SourceRule)
    (hrules : group.rules = some (pre ++ r :: rest))
    (hpre : ∀ x ∈ pre, isAlertingRule x = false) (_ : isAlertingRule r = true)
    (hexpr : ∀ x ∈ r :: rest, isAlertingRule x = true → x.expr.isSome = true) :
    ∃ out, convertGroup lower group = some out ∧
      out.folder = determineFolder lower (pre.head?.getD r) ∧
      (pre = [] → out.folder = determineFolder lower r) := by
  have hall : ∀ x ∈ group.rules.getD [], isAlertingRule x = true → x.expr.isSome = true := by
    intro x hx ha
    rw [hrules] at hx
    simp only [Option.getD_some, List.mem_append] at hx
    rcases hx with hx | hx
    · rw [hpre x hx] at ha
      cases ha
    · exact hexpr x hx ha
  obtain ⟨out, hout⟩ := convertGroup_isSome lower group hall
  have hf := (convertGroup_fields lower group out hout).2.2.2.1
  have hfolder : out.folder = determineFolder lower (pre.head?.getD r) := by
    rw [hf, hrules]
    cases pre <;> rfl
  refine ⟨out, hout, hfolder, ?_⟩
  intro h0
  rw [hfolder, h0]
  rfl

/-- Witness of C11: with the alerting rule first, the folder is the one of that
rule. -/
theorem convertGroup_first_alerting_witness :
    ∃ out,
      convertGroup asciiLower
          { name := "g".toList, interval := none,
            rules := some
              [ { alert := some "NodeDown".toList, expr := some "up == 0".toList,
                  «for» := none,
                  labels := some [("component".toList, "node".toList)],
                  annotations := none },
                { alert := none, expr := some "sum(up)".toList, «for» := none,
                  labels := some [("component".toList, "postgresql".toList)],
                  annotations := none } ] } = some out ∧
        out.folder = "infrastructure".toList := by
  obtain ⟨out, hout, _, hfolder⟩ := convertGroup_first_alerting asciiLower
    { name := "g".toList, interval := none,
      rules := some
        [ { alert := some "NodeDown".toList, expr := some "up == 0".toList,
            «for» := none,
            labels := some [("component".toList, "node".toList)],
            annotations := none },
          { alert := none, expr := some "sum(up)".toList, «for» := none,
            labels := some [("component".toList, "postgresql".toList)],
            annotations := none } ] }
    [] _ _ rfl (by decide) (by decide) (by decide)
  exact ⟨out, hout, by rw [hfolder rfl]; decide⟩

/-- C12, as stated, fails: the alert name `!!!` is not empty and its uid is the
empty string. -/
theorem convertRule_uid_counterexample :
    (convertRule asciiLower
        { alert := some "!!!".toList, expr := some "up".toList, «for» := none,
          labels := none, annotations := none }).map (fun out => out.uid)
      = some [] ∧ "!!!".toList ≠ [] := by
  decide

/-- C12, amended: the uid of a converted rule has at most 40 characters, all of
them in `[a-z0-9_-]`; it is not empty exactly when the lowercased alert name has
a letter `a` to `z`, a digit or `_`. -/
theorem convertRule_uid (lower : Str → Str) (rule : SourceRule) (alert expr : Str)
    (ha : rule.alert = some alert) (he : rule.expr = some expr) :
    ∃ out, convertRule lower rule = some out ∧ out.uid.length ≤ 40 ∧
      (∀ c ∈ out.uid,
        ('a'.toNat ≤ c.toNat ∧ c.toNat ≤ 'z'.toNat) ∨ ('0'.toNat ≤ c.toNat ∧ c.toNat ≤ '9'.toNat) ∨
          c = '_' ∨ c = '-') ∧
      (out.uid ≠ [] ↔
        ∃ c ∈ lower alert,
          ('a'.toNat ≤ c.toNat ∧ c.toNat ≤ 'z'.toNat) ∨
            ('0'.toNat ≤ c.toNat ∧ c.toNat ≤ '9'.toNat) ∨ c = '_') := by
  obtain ⟨hlen, hchars, _, _⟩ := generateUid_invariants lower alert
  have hconv : convertRule lower rule = some
      { uid := generateUid lower alert, title := alert, condition := "C".toList
        «for» := orElse rule.«for» "0s".toList, noDataState := "OK".toList
        execErrState := "Alerting".toList, annotations := rule.annotations.getD []
        labels := rule.labels.getD [], data := convertPromQLToGrafanaQuery expr } := by
    unfold convertRule
    rw [ha, he]
  refine ⟨_, hconv, hlen, ?_, ?_⟩
  · intro c hc
    have := hchars c hc
    simpa [isUidChar, or_assoc] using this
  · show generateUid lower alert ≠ [] ↔ _
    rw [generateUid_ne_nil_iff]
    constructor
    · rintro ⟨c, hc, hu, hne⟩
      refine ⟨c, hc, ?_⟩
      have : ('a'.toNat ≤ c.toNat ∧ c.toNat ≤ 'z'.toNat) ∨
          ('0'.toNat ≤ c.toNat ∧ c.toNat ≤ '9'.toNat) ∨ c = '_' ∨ c = '-' := by
        simpa [isUidChar, or_assoc] using hu
      rcases this with h | h | h | h
      · exact Or.inl h
      · exact Or.inr (Or.inl h)
      · exact Or.inr (Or.inr h)
      · exact absurd h hne
    · rintro ⟨c, hc, h⟩
      refine ⟨c, hc, ?_, ?_⟩
      · have : ('a'.toNat ≤ c.toNat ∧ c.toNat ≤ 'z'.toNat) ∨
            ('0'.toNat ≤ c.toNat ∧ c.toNat ≤ '9'.toNat) ∨ c = '_' ∨ c = '-' := by
          rcases h with h | h | h
          · exact Or.inl h
          · exact Or.inr (Or.inl h)
          · exact Or.inr (Or.inr (Or.inl h))
        simpa [isUidChar, or_assoc] using this
      · rintro rfl
        revert h
        decide

/-- Witness of C12: the rule `HighCPU` gets the non-empty uid `highcpu`. -/
theorem convertRule_uid_witness :
    ∃ out,
      convertRule asciiLower
          { alert := some "HighCPU".toList, expr := some "cpu > 90".toList, «for» := none,
            labels := none, annotations := none } = some out ∧
        out.uid = "highcpu".toList := by
  obtain ⟨out, hout, _, _, _⟩ := convertRule_uid asciiLower
    { alert := some "HighCPU".toList, expr := some "cpu > 90".toList, «for» := none,
      labels := none, annotations := none } "HighCPU".toList "cpu > 90".toList rfl rfl
  refine ⟨out, hout, ?_⟩
  have h2 : convertRule asciiLower
      { alert := some "HighCPU".toList, expr := some "cpu > 90".toList, «for» := none,
        labels := none, annotations := none } ≠ none := by decide
  have h3 : (convertRule asciiLower
      { alert := some "HighCPU".toList, expr := some "cpu > 90".toList, «for» := none,
        labels := none, annotations := none }).map (fun o => o.uid) = some "highcpu".toList := by
    decide
  rw [hout] at h3
  simpa using h3

/-- C16, as stated, fails: the different names `High CPU` and `high-cpu` get the
same uid `high-cpu`. -/
theorem generateUid_collision_counterexample :
    "High CPU".toList ≠ "high-cpu".toList ∧
      generateUid asciiLower "High CPU".toList = generateUid asciiLower "high-cpu".toList ∧
      generateUid asciiLower "High CPU".toList = "high-cpu".toList := by
  decide

/-- C16, amended: two different names that are already in uid form (at most 40
characters of `[a-z0-9_-]`, no `--`, no `-` at the end) get different uids,
each being its own uid; `toLowerCase` leaves the strings over `[a-z0-9_-]`
unchanged. -/
theorem generateUid_injective_on_normal (lower : Str → Str)
    (hlower : ∀ s : Str, (∀ c ∈ s, isUidChar c = true) → lower s = s) (a b : Str)
    (ha : IsNormalUid a) (hb : IsNormalUid b) (hab : a ≠ b) :
    generateUid lower a = a ∧ generateUid lower b = b ∧
      generateUid lower a ≠ generateUid lower b := by
  have h1 := generateUid_of_normal lower hlower a ha
  have h2 := generateUid_of_normal lower hlower b hb
  refine ⟨h1, h2, ?_⟩
  rw [h1, h2]
  exact hab

/-- Witness of C16: `high-cpu` and `high_cpu` are in uid form and get different
uids. -/
theorem generateUid_injective_on_normal_witness :
    generateUid asciiLower "high-cpu".toList = "high-cpu".toList ∧
      generateUid asciiLower "high_cpu".toList = "high_cpu".toList ∧
      generateUid asciiLower "high-cpu".toList ≠ generateUid asciiLower "high_cpu".toList :=
  generateUid_injective_on_normal asciiLower asciiLower_of_uid "high-cpu".toList
    "high_cpu".toList
    ⟨by decide, by decide,
      by
        have h := squeeze_noDouble "high-cpu".toList
        rwa [show squeeze "high-cpu".toList = "high-cpu".toList by decide] at h,
      by decide⟩
    ⟨by decide, by decide,
      by
        have h := squeeze_noDouble "high_cpu".toList
        rwa [show squeeze "high_cpu".toList = "high_cpu".toList by decide] at h,
      by decide⟩
    (by decide)

/-- C13, as stated, fails: an alerting rule without `expr` makes the conversion
of its group raise an error instead of returning a group. -/
theorem convertGroup_missing_expr_counterexample :
    convertGroup asciiLower
        { name := "g".toList, interval := none,
          rules := some [{ alert := some "NoExpr".toList, expr := none, «for» := none,
                           labels := none, annotations := none }] }
      = none := by
  decide

/-- C13, amended: the conversion of a group returns a group exactly when every
alerting rule of the group has an `expr`; the group returned has the defaults
for an absent `interval` and absent `rules`, and each of its rules the defaults
for an absent `for`, `labels` and `annotations`. -/
theorem convertGroup_defaults (lower : Str → Str) (group : SourceGroup) :
    ((∃ out, convertGroup lower group = some out) ↔
      ∀ r ∈ group.rules.getD [], isAlertingRule r = true → r.expr.isSome = true) ∧
    (∀ out, convertGroup lower group = some out →
      (group.interval = none → out.interval = "30s".toList) ∧
      (group.rules = none → out.rules = [] ∧ out.folder = "applications".toList) ∧
      List.Forall₂
        (fun r o => convertRule lower r = some o ∧
          (r.«for» = none → o.«for» = "0s".toList) ∧ (r.labels = none → o.labels = []) ∧
          (r.annotations = none → o.annotations = []))
        ((group.rules.getD []).filter isAlertingRule) out.rules) := by
  constructor
  · constructor
    · rintro ⟨out, hout⟩
      exact (convertGroup_rules_rel lower group out hout).1
    · exact convertGroup_isSome lower group
  · intro out hout
    obtain ⟨_, _, hint, hfolder, hrs⟩ := convertGroup_fields lower group out hout
    refine ⟨fun hi => ?_, fun hr => ?_, ?_⟩
    · rw [hint, hi]
      rfl
    · rw [hr] at hrs hfolder
      simp only [Option.getD_none, convertRules, Option.some.injEq] at hrs
      exact ⟨hrs.symm, hfolder⟩
    · exact (convertGroup_rules_rel lower group out hout).2.imp
        (fun {r o} h => ⟨h, convertRule_defaults lower r o h⟩)

/-- Witness of C13: a group without `interval` whose only rule has just `alert`
and `expr` is converted with the defaults `30s`, `0s` and empty mappings. -/
theorem convertGroup_defaults_witness :
    (∃ out, convertGroup asciiLower
        { name := "g".toList, interval := none,
          rules := some [{ alert := some "Down".toList, expr := some "up == 0".toList,
                           «for» := none, labels := none, annotations := none }] } = some out) ∧
    convertGroup asciiLower
        { name := "g".toList, interval := none,
          rules := some [{ alert := some "Down".toList, expr := some "up == 0".toList,
                           «for» := none, labels := none, annotations := none }] }
      = some
        { orgId := 1, name := "g".toList, folder := "applications".toList
          interval := "30s".toList
          rules :=
            [{ uid := "down".toList, title := "Down".toList, condition := "C".toList
               «for» := "0s".toList, noDataState := "OK".toList
               execErrState := "Alerting".toList, annotations := [], labels := []
               data := convertPromQLToGrafanaQuery "up == 0".toList }] } :=
  ⟨(convertGroup_defaults asciiLower
      { name := "g".toList, interval := none,
        rules := some [{ alert := some "Down".toList, expr := some "up == 0".toList,
                         «for» := none, labels := none, annotations := none }] }).1.2
      (by decide),
    by decide⟩

/-- C14, as stated, fails: a group whose `interval` is the empty string is given
the interval `30s`, not its own interval. -/
theorem convertDocument_interval_counterexample :
    (convertGroup asciiLower
        { name := "g".toList, interval := some "".toList, rules := none }).map
        (fun out => out.interval) = some "30s".toList ∧
      (some "".toList : Option Str).getD "30s".toList ≠ "30s".toList := by
  decide

/-- C14, amended: when every alerting rule has an `expr`, the document has
`apiVersion` 1 and one converted group per source group, in the same order; a
converted group has `orgId` 1, the name of its source group, the interval of
its source group when it is present and not empty and `30s` otherwise, and, for
a source group without rules, the folder `applications` and no rules. -/
theorem convertDocument_groups (lower : Str → Str) (groups : List SourceGroup)
    (hexpr : ∀ g ∈ groups, ∀ r ∈ g.rules.getD [],
      isAlertingRule r = true → r.expr.isSome = true) :
    ∃ doc, convertPrometheusRule lower groups = some doc ∧ doc.apiVersion = 1 ∧
      List.Forall₂
        (fun g out => convertGroup lower g = some out ∧ out.orgId = 1 ∧ out.name = g.name ∧
          out.interval =
            (match g.interval with
              | some i => if i = [] then "30s".toList else i
              | none => "30s".toList) ∧
          (g.rules.getD [] = [] → out.folder = "applications".toList ∧ out.rules = []))
        groups doc.groups := by
  obtain ⟨outs, houts, hrel⟩ := convertGroups_spec lower groups [] hexpr
  refine ⟨{ apiVersion := 1, groups := outs }, ?_, rfl, ?_⟩
  · simp only [convertPrometheusRule, houts, List.nil_append]
  · refine hrel.imp (fun {g out} h => ?_)
    obtain ⟨h1, h2, h3, h4, h5⟩ := convertGroup_fields lower g out h
    refine ⟨h, h1, h2, ?_, fun h0 => ?_⟩
    · rw [h3]
      unfold orElse
      cases hi : g.interval with
      | none => rfl
      | some i => cases i <;> rfl
    · rw [h0] at h4 h5
      simp only [convertRules, Option.some.injEq] at h5
      exact ⟨h4, h5.symm⟩

/-- Witness of C14: two groups, the first without rules and without interval,
give two converted groups in the same order. -/
theorem convertDocument_groups_witness :
    ∃ doc,
      convertPrometheusRule asciiLower
          [ { name := "empty".toList, interval := none, rules := none },
            { name := "db".toList, interval := some "1m".toList,
              rules := some [{ alert := some "PgDown".toList, expr := some "pg_up == 0".toList,
                               «for» := none,
                               labels := some [("component".toList, "postgresql".toList)],
                               annotations := none }] } ] = some doc ∧
        doc.groups.map (fun g => (g.name, g.folder, g.interval, g.rules.length))
          = [ ("empty".toList, "applications".toList, "30s".toList, 0),
              ("db".toList, "databases".toList, "1m".toList, 1) ] := by
  obtain ⟨doc, hdoc, _, _⟩ := convertDocument_groups asciiLower
    [ { name := "empty".toList, interval := none, rules := none },
      { name := "db".toList, interval := some "1m".toList,
        rules := some [{ alert := some "PgDown".toList, expr := some "pg_up == 0".toList,
                         «for» := none,
                         labels := some [("component".toList, "postgresql".toList)],
                         annotations := none }] } ] (by decide)
  refine ⟨doc, hdoc, ?_⟩
  have h := congrArg (Option.map (fun d : OutputData =>
    d.groups.map (fun g => (g.name, g.folder, g.interval, g.rules.length)))) hdoc
  have h2 : (convertPrometheusRule asciiLower
      [ { name := "empty".toList, interval := none, rules := none },
        { name := "db".toList, interval := some "1m".toList,
          rules := some [{ alert := some "PgDown".toList, expr := some "pg_up == 0".toList,
                           «for» := none,
                           labels := some [("component".toList, "postgresql".toList)],
                           annotations := none }] } ]).map (fun d : OutputData =>
        d.groups.map (fun g => (g.name, g.folder, g.interval, g.rules.length)))
      = some [ ("empty".toList, "applications".toList, "30s".toList, 0),
               ("db".toList, "databases".toList, "1m".toList, 1) ] := by
    decide
  rw [h2] at h
  simpa using h.symm

/-- C15: `determineFolder` is a total function that returns `infrastructure`,
`databases` or `applications`, and its result depends on the labels only. -/
theorem determineFolder_total (lower : Str → Str) (rule : SourceRule) :
    (determineFolder lower rule = "infrastructure".toList ∨
      determineFolder lower rule = "databases".toList ∨
      determineFolder lower rule = "applications".toList) ∧
    (∀ other : SourceRule, other.labels = rule.labels →
      determineFolder lower other = determineFolder lower rule) := by
  refine ⟨determineFolder_mem lower rule, fun other h => ?_⟩
  unfold determineFolder
  rw [h]

/-- Witness of C15: absent labels and empty labels are both classified
`applications`. -/
theorem determineFolder_total_witness :
    determineFolder asciiLower
        { alert := some "A".toList, expr := some "up".toList, «for» := none,
          labels := none, annotations := none } = "applications".toList ∧
      determineFolder asciiLower
        { alert := none, expr := none, «for» := some "5m".toList,
          labels := none, annotations := none }
        = determineFolder asciiLower
          { alert := some "A".toList, expr := some "up".toList, «for» := none,
            labels := none, annotations := none } :=
  ⟨by decide, (determineFolder_total asciiLower _).2 _ rfl⟩

/-- C17: for a newline-free `b`, an operator `op` among the six and a digit
string `n`, the comparisons against `-n`, `.n` and `nen` are not recognised:
stage A queries the whole trimmed expression and stage C evaluates `$B > 0`. -/
theorem convertPromQL_unrecognised_numbers (b op n : Str) (hb : '\n' ∉ b)
    (hop : op ∈ comparisonOperators) (hn : ∀ c ∈ n, isDigit c = true) :
    Unrecognised (b ++ " ".toList ++ op ++ " -".toList ++ n) ∧
      Unrecognised (b ++ " ".toList ++ op ++ " .".toList ++ n) ∧
      Unrecognised (b ++ " ".toList ++ op ++ " ".toList ++ n ++ "e".toList ++ n) := by
  refine ⟨?_, ?_, ?_⟩
  · have h := unrecognised_of_tail b op [' '] '-' n hb hop (by simp) (by simp) (by decide)
      (by decide) (by decide) (by decide) (fun h => absurd h (by decide)) hn
    simpa [List.append_assoc] using h
  · have h := unrecognised_of_tail b op [' '] '.' n hb hop (by simp) (by simp) (by decide)
      (by decide) (by decide) (by decide)
      (fun _ y hy => by
        have : y = ' ' := by simpa using hy.symm
        subst this
        decide) hn
    simpa [List.append_assoc] using h
  · have h := unrecognised_of_tail b op (' ' :: n) 'e' n hb hop
      (by
        intro c hc
        rcases List.mem_cons.1 hc with h | h
        · exact Or.inl h
        · exact Or.inr (hn c h))
      (by simp) (by decide) (by decide) (by decide) (by decide)
      (fun h => absurd h (by decide)) hn
    simpa [List.append_assoc] using h

/-- Witness of C17: `x > -5`, `x > .5` and `x > 5e5` are queried whole, with the
math expression `$B > 0`. -/
theorem convertPromQL_unrecognised_numbers_witness :
    Unrecognised ("x".toList ++ " ".toList ++ ">".toList ++ " -".toList ++ "5".toList) ∧
      Unrecognised ("x".toList ++ " ".toList ++ ">".toList ++ " .".toList ++ "5".toList) ∧
      Unrecognised
        ("x".toList ++ " ".toList ++ ">".toList ++ " ".toList ++ "5".toList ++ "e".toList
          ++ "5".toList) :=
  convertPromQL_unrecognised_numbers "x".toList ">".toList "5".toList (by decide) (by decide)
    (by decide)

/-- C18: the document converted from a sequence of groups, read back as an
alert file, passes `validateFile` exactly when every group has a non-empty name
and every converted rule a non-empty uid; a rejection comes from the check of
the group name or of the rule uid, never from the checks of `apiVersion`,
`groups`, `folder`, `rules`, `title`, `condition` or `data`. -/
theorem validateFile_converted (lower : Str → Str) (groups : List SourceGroup)
    (fileName : Str)
    (hfile : fileName ≠ "folders.yaml".toList ∧ fileName ≠ "contact-points.yaml".toList ∧
      fileName ≠ "notification-policies.yaml".toList)
    (hexpr : ∀ g ∈ groups, ∀ r ∈ g.rules.getD [],
      isAlertingRule r = true → r.expr.isSome = true) :
    ∃ doc, convertPrometheusRule lower groups = some doc ∧
      (validateFile fileName (loadedDocument doc) = ValidationResult.valid ↔
        (∀ g ∈ groups, g.name ≠ []) ∧ ∀ g ∈ doc.groups, ∀ r ∈ g.rules, r.uid ≠ []) ∧
      (∀ error, validateFile fileName (loadedDocument doc) = ValidationResult.invalid error →
        error = Rejection.groupName ∨ error = Rejection.ruleUid) := by
  obtain ⟨outs, houts, hrel⟩ := convertGroups_spec lower groups [] hexpr
  have hdoc : convertPrometheusRule lower groups = some { apiVersion := 1, groups := outs } := by
    simp only [convertPrometheusRule, houts, List.nil_append]
  have hgood : ∀ g ∈ outs, g.folder ≠ [] ∧ ∀ r ∈ g.rules, r.title ≠ [] ∧ r.condition ≠ [] := by
    intro out hout
    clear houts hdoc
    induction hrel with
    | nil => cases hout
    | cons hab _ ih =>
      rcases List.mem_cons.1 hout with h | h
      · subst h
        exact (convertGroup_checked lower _ _ hab).2
      · exact ih (fun g hg => hexpr g (List.mem_cons_of_mem _ hg)) h
  have hnames : (∀ g ∈ groups, g.name ≠ []) ↔ ∀ out ∈ outs, out.name ≠ [] :=
    forall₂_names (hrel.imp (fun {g out} h => (convertGroup_checked lower g out h).1))
  obtain ⟨hc1, hc2⟩ := checkGroups_converted outs hgood
  have hv : validateFile fileName (loadedDocument { apiVersion := 1, groups := outs })
      = match checkGroups (outs.map loadedGroup) with
        | some error => ValidationResult.invalid error
        | none => ValidationResult.valid := by
    have e1 : (decide (fileName = "folders.yaml".toList) && !false) = false := by
      rw [decide_eq_false hfile.1]
      rfl
    have e2 : (decide (fileName = "contact-points.yaml".toList) && !false) = false := by
      rw [decide_eq_false hfile.2.1]
      rfl
    have e3 : (decide (fileName = "notification-policies.yaml".toList) && !false) = false := by
      rw [decide_eq_false hfile.2.2]
      rfl
    unfold validateFile loadedDocument
    simp only [e1, e2, e3, Bool.false_eq_true, if_false, if_pos hfile]
    rw [if_neg (by simp)]
  refine ⟨_, hdoc, ?_, ?_⟩
  · rw [hv, hnames, ← hc1]
    cases checkGroups (outs.map loadedGroup) <;> simp
  · intro error herr
    rw [hv] at herr
    cases hcg : checkGroups (outs.map loadedGroup) with
    | none =>
      rw [hcg] at herr
      cases herr
    | some e =>
      rw [hcg] at herr
      cases herr
      exact hc2 _ hcg

/-- Witness of C18: the group `g` with the rule `Down` is accepted as
`rules.yaml`; with the rule `!!!`, whose uid is empty, it is rejected by the
check of the uid. -/
theorem validateFile_converted_witness :
    (∃ doc,
      convertPrometheusRule asciiLower
          [{ name := "g".toList, interval := none,
             rules := some [{ alert := some "Down".toList, expr := some "up == 0".toList,
                              «for» := none, labels := none, annotations := none }] }]
        = some doc ∧
      validateFile "rules.yaml".toList (loadedDocument doc) = ValidationResult.valid) ∧
    (convertPrometheusRule asciiLower
        [{ name := "g".toList, interval := none,
           rules := some [{ alert := some "!!!".toList, expr := some "up == 0".toList,
                            «for» := none, labels := none, annotations := none }] }]).map
        (fun doc => validateFile "rules.yaml".toList (loadedDocument doc))
      = some (ValidationResult.invalid Rejection.ruleUid) := by
  refine ⟨?_, by decide⟩
  obtain ⟨doc, hdoc, hiff, _⟩ := validateFile_converted asciiLower
    [{ name := "g".toList, interval := none,
       rules := some [{ alert := some "Down".toList, expr := some "up == 0".toList,
                        «for» := none, labels := none, annotations := none }] }]
    "rules.yaml".toList (by decide) (by decide)
  refine ⟨doc, hdoc, ?_⟩
  have h2 : (convertPrometheusRule asciiLower
      [{ name := "g".toList, interval := none,
         rules := some [{ alert := some "Down".toList, expr := some "up == 0".toList,
                          «for» := none, labels := none, annotations := none }] }]).map
      (fun doc => validateFile "rules.yaml".toList (loadedDocument doc))
      = some ValidationResult.valid := by
    decide
  rw [hdoc] at h2
  simpa using h2

end CopperIQ
